import Mathlib

/-!
Verification of the `micromark-rs` core against its specification.

The development shallowly embeds the code of `src/subtokenize.rs` and
`src/construct/partial_space_or_tab.rs`.  Types that live in the crate's
`tokenizer.rs` (absent here) are modelled from the specification, §3 and §4.1.
Rust panics/aborts (failed `assert!`, `expect`, out-of-bounds indexing,
`usize` underflow) are modelled by returning `none`.
-/

set_option autoImplicit false

namespace Micromark

/-- Modelled from the spec: the parser's alphabet `Code` (§3); the enum lives
in the absent `tokenizer.rs`. -/
inductive Code where
  | none
  | carriageReturnLineFeed
  | char (c : Char)
  | virtualSpace
deriving DecidableEq, Repr

/-- Modelled from the spec: `EventType` (§3); lives in the absent `tokenizer.rs`. -/
inductive EventType where
  | enter
  | exit
deriving DecidableEq, Repr

/-- Modelled from the spec: `ContentType` (§3); lives in the absent `tokenizer.rs`. -/
inductive ContentType where
  | string
  | text
deriving DecidableEq, Repr

/-- Modelled from the spec: `TokenType` (§3) is a closed enumeration of markdown
kinds; it lives in the absent `tokenizer.rs`.  Only the kinds the embedded code
mentions are given constructors; `other n` stands for the remaining kinds. -/
inductive TokenType where
  | spaceOrTab
  | lineEnding
  | chunkString
  | chunkText
  | data
  | paragraph
  | other (n : Nat)
deriving DecidableEq, Repr

/-- Modelled from the spec: `Point` (§3): `(line, column, offset, index)`;
lives in the absent `tokenizer.rs`. -/
structure Point where
  line : Nat
  column : Nat
  offset : Nat
  index : Nat
deriving DecidableEq, Repr

/-- Modelled from the spec: `Link` (§3): the chain metadata attached to `Enter`
events; lives in the absent `tokenizer.rs`. -/
structure Link where
  previous : Option Nat
  next : Option Nat
  content_type : ContentType
deriving DecidableEq, Repr

/-- Modelled from the spec: `Event` (§3); lives in the absent `tokenizer.rs`. -/
structure Event where
  event_type : EventType
  token_type : TokenType
  point : Point
  link : Option Link
deriving DecidableEq, Repr

/-- Checked `usize` subtraction: Rust under/overflow aborts (debug builds
panic; in release the wrapped value immediately drives indexing out of
bounds), so underflow is modelled as `none`. -/
def usizeSub (a b : Nat) : Option Nat :=
  if b ≤ a then some (a - b) else none

/-- `link_to` from `src/subtokenize.rs` lines 39-56.  The four `assert_eq!`s,
the two `expect`s, the final content-type `assert_eq!` and out-of-bounds
indexing are modelled as `none` (abort).  Note the source reads
`conten_type_previous` before mutating, mutates `events[pevious].link.next`,
re-borrows `events[next]` (which may be the same slot) and then mutates its
`link.previous`; the embedding follows that order. -/
def link_to (events : List Event) (pevious next : Nat) : Option (List Event) :=
  match events[pevious]?, events[pevious + 1]?, events[next]? with
  | some ep, some ep1, some en =>
    if ep.event_type = EventType.enter ∧
        ep1.event_type = EventType.exit ∧
        ep1.token_type = ep.token_type ∧
        en.event_type = EventType.enter then
      match ep.link with
      | none => none
      | some lp =>
        let events1 := events.set pevious
          { ep with link := some { lp with next := some next } }
        match events1[next]? with
        | none => none
        | some en1 =>
          match en1.link with
          | none => none
          | some ln =>
            let events2 := events1.set next
              { en1 with link := some { ln with previous := some pevious } }
            if lp.content_type = ln.content_type then some events2 else none
    else none
  | _, _, _ => none

/-- `link` from `src/subtokenize.rs` lines 34-36: `link_to(events, index - 2, index)`
with `usize` subtraction. -/
def link (events : List Event) (index : Nat) : Option (List Event) :=
  match usizeSub index 2 with
  | none => none
  | some p => link_to events p index

/-! ### Claims about `link` and `link_to` -/

/-- C10: `link(events, index)` is defined only for `index ≥ 2`: for `index < 2`
the `usize` underflow in `index - 2` aborts the call before `events` is
touched, and for `index ≥ 2` it behaves exactly as
`link_to(events, index - 2, index)`. -/
theorem link_underflow_or_delegates (events : List Event) (index : Nat) :
    (index < 2 → link events index = none) ∧
    (2 ≤ index → link events index = link_to events (index - 2) index) := by
  constructor
  · intro h
    simp only [link, usizeSub, if_neg (Nat.not_le.mpr h)]
  · intro h
    simp only [link, usizeSub, if_pos h]

/-- Witness for C10 at `index = 1` (abort) and `index = 5` (delegation). -/
theorem link_underflow_or_delegates_witness :
    link [] 1 = none ∧ link [] 5 = link_to [] 3 5 :=
  ⟨(link_underflow_or_delegates [] 1).1 (by decide),
   (link_underflow_or_delegates [] 5).2 (by decide)⟩

/-- A sample point for concrete event vectors. -/
def pt0 : Point := { line := 1, column := 1, offset := 0, index := 0 }

/-- Concrete event vector for the C3 counterexample: index 2 is an `Enter`
carrying a link but followed by another `Enter`, not by its `Exit`. -/
def c3Events : List Event :=
  [ { event_type := EventType.enter, token_type := TokenType.chunkText,
      point := pt0,
      link := some { previous := none, next := none, content_type := ContentType.text } },
    { event_type := EventType.exit, token_type := TokenType.chunkText,
      point := pt0, link := none },
    { event_type := EventType.enter, token_type := TokenType.chunkText,
      point := pt0,
      link := some { previous := none, next := none, content_type := ContentType.text } },
    { event_type := EventType.enter, token_type := TokenType.data,
      point := pt0, link := none } ]

/-- C3 counterexample: `events[b]` (here `b = 2`) is not immediately followed
by its matching `Exit` — the next event is an `Enter` — yet
`link_to(events, 0, 2)` succeeds instead of aborting.  The source explicitly
skips that check (`subtokenize.rs` line 44: the exit of this event may not
exist). -/
theorem link_to_no_exit_check_cex :
    (c3Events[3]?).map Event.event_type = some EventType.enter ∧
    (link_to c3Events 0 2).isSome = true := by decide

/-- C3 amended: `link_to(events, a, b)` aborts exactly when one of the
conditions it actually checks fails: `events[a]` exists, is `Enter` and
carries a link; `events[a+1]` exists and is the `Exit` of the same token type;
`events[b]` exists, is `Enter` and carries a link whose `content_type` matches.
It does not check that `events[b]` is immediately followed by its `Exit`. -/
theorem link_to_isSome_iff (events : List Event) (a b : Nat) :
    (link_to events a b).isSome = true ↔
      ∃ ea ea1 eb la lb,
        events[a]? = some ea ∧ events[a + 1]? = some ea1 ∧ events[b]? = some eb ∧
        ea.event_type = EventType.enter ∧ ea1.event_type = EventType.exit ∧
        ea1.token_type = ea.token_type ∧ eb.event_type = EventType.enter ∧
        ea.link = some la ∧ eb.link = some lb ∧
        la.content_type = lb.content_type := by
  constructor
  · intro h
    unfold link_to at h
    split at h
    case h_2 => simp at h
    case h_1 ea ea1 eb ha ha1 hb =>
      split at h
      case isFalse => simp at h
      case isTrue hcond =>
        obtain ⟨hae, ha1e, ha1t, hbe⟩ := hcond
        cases hal : ea.link with
        | none => rw [hal] at h; simp at h
        | some la =>
          rw [hal] at h
          simp only [] at h
          by_cases hab : a = b
          · subst hab
            have hlen : a < events.length := by
              by_contra hlt
              rw [List.getElem?_eq_none (Nat.le_of_not_lt hlt)] at ha
              exact Option.noConfusion ha
            rw [List.getElem?_set_eq_of_lt _ hlen] at h
            simp only [] at h
            split at h
            · have heab : ea = eb := by
                rw [ha] at hb; exact Option.some.inj hb
              exact ⟨ea, ea1, eb, la, la, ha, ha1, hb, hae, ha1e, ha1t, hbe,
                hal, by rw [← heab, hal], rfl⟩
            · simp at h
          · rw [List.getElem?_set_ne (fun hh => hab hh), hb] at h
            simp only [] at h
            cases hbl : eb.link with
            | none => rw [hbl] at h; simp at h
            | some lb =>
              rw [hbl] at h
              simp only [] at h
              split at h
              · rename_i hct
                exact ⟨ea, ea1, eb, la, lb, ha, ha1, hb, hae, ha1e, ha1t, hbe,
                  hal, hbl, hct⟩
              · simp at h
  · rintro ⟨ea, ea1, eb, la, lb, ha, ha1, hb, hae, ha1e, ha1t, hbe, hal, hbl, hct⟩
    unfold link_to
    rw [ha, ha1, hb]
    simp only []
    rw [if_pos ⟨hae, ha1e, ha1t, hbe⟩, hal]
    simp only []
    by_cases hab : a = b
    · subst hab
      have hlen : a < events.length := by
        by_contra hlt
        rw [List.getElem?_eq_none (Nat.le_of_not_lt hlt)] at ha
        exact Option.noConfusion ha
      rw [List.getElem?_set_eq_of_lt _ hlen]
      simp only []
      have heab : ea = eb := by rw [ha] at hb; exact Option.some.inj hb
      have hlab : la = lb := by rw [heab, hbl] at hal; exact (Option.some.inj hal).symm
      rw [if_pos (by simp only [])]
      simp
    · rw [List.getElem?_set_ne (fun hh => hab hh), hb]
      simp only []
      rw [hbl]
      simp only []
      rw [if_pos hct]
      simp

/-- Bound extraction from a successful indexed lookup. -/
theorem lt_length_of_getElem?_some {α : Type} {l : List α} {n : Nat} {x : α}
    (h : l[n]? = some x) : n < l.length := by
  by_contra hlt
  rw [List.getElem?_eq_none (Nat.le_of_not_lt hlt)] at h
  exact Option.noConfusion h

/-- C8: under `link_to`'s stated preconditions (`a` and `b` are `Enter` events
carrying link metadata with matching `content_type`, and `a` is immediately
followed by its `Exit` of the same token type), the call succeeds, setting
`events[a].link.next = some b` and `events[b].link.previous = some a`. -/
theorem link_to_sets_links (events : List Event) (a b : Nat)
    (ea ea1 eb : Event) (la lb : Link)
    (ha : events[a]? = some ea) (hae : ea.event_type = EventType.enter)
    (hal : ea.link = some la)
    (ha1 : events[a + 1]? = some ea1) (ha1e : ea1.event_type = EventType.exit)
    (ha1t : ea1.token_type = ea.token_type)
    (hb : events[b]? = some eb) (hbe : eb.event_type = EventType.enter)
    (hbl : eb.link = some lb)
    (hct : la.content_type = lb.content_type) :
    ∃ events' ea' eb' la' lb',
      link_to events a b = some events' ∧
      events'[a]? = some ea' ∧ ea'.link = some la' ∧ la'.next = some b ∧
      events'[b]? = some eb' ∧ eb'.link = some lb' ∧ lb'.previous = some a := by
  have hlenA : a < events.length := lt_length_of_getElem?_some ha
  have hlenB : b < events.length := lt_length_of_getElem?_some hb
  by_cases hab : a = b
  · subst hab
    have heab : ea = eb := by rw [ha] at hb; exact Option.some.inj hb
    subst heab
    have hlab : la = lb := by rw [hal] at hbl; exact Option.some.inj hbl
    subst hlab
    have hres : link_to events a a =
        some ((events.set a { ea with link := some { la with next := some a } }).set a
          { ea with link := some { la with previous := some a, next := some a } }) := by
      unfold link_to
      rw [ha, ha1]
      simp only []
      rw [if_pos ⟨hae, ha1e, ha1t, hae⟩, hal]
      simp only []
      rw [List.getElem?_set_eq_of_lt _ hlenA]
      simp only []
      simp only [if_true]
    refine ⟨_, { ea with link := some { la with previous := some a, next := some a } },
      { ea with link := some { la with previous := some a, next := some a } },
      { la with previous := some a, next := some a },
      { la with previous := some a, next := some a },
      hres, ?_, rfl, rfl, ?_, rfl, rfl⟩
    · rw [List.getElem?_set_eq_of_lt _ (by simpa using hlenA)]
    · rw [List.getElem?_set_eq_of_lt _ (by simpa using hlenA)]
  · have hres : link_to events a b =
        some ((events.set a { ea with link := some { la with next := some b } }).set b
          { eb with link := some { lb with previous := some a } }) := by
      unfold link_to
      rw [ha, ha1, hb]
      simp only []
      rw [if_pos ⟨hae, ha1e, ha1t, hbe⟩, hal]
      simp only []
      rw [List.getElem?_set_ne (fun hh => hab hh), hb]
      simp only []
      rw [hbl]
      simp only []
      rw [if_pos hct]
    refine ⟨_, { ea with link := some { la with next := some b } },
      { eb with link := some { lb with previous := some a } },
      { la with next := some b }, { lb with previous := some a },
      hres, ?_, rfl, rfl, ?_, rfl, rfl⟩
    · rw [List.getElem?_set_ne (fun hh => hab hh.symm),
        List.getElem?_set_eq_of_lt _ hlenA]
    · rw [List.getElem?_set_eq_of_lt _ (by simpa using hlenB)]

/-- Witness for C8: a two-member chain of void `chunkText` events. -/
def c8Events : List Event :=
  [ { event_type := EventType.enter, token_type := TokenType.chunkText,
      point := pt0,
      link := some { previous := none, next := none, content_type := ContentType.text } },
    { event_type := EventType.exit, token_type := TokenType.chunkText,
      point := pt0, link := none },
    { event_type := EventType.enter, token_type := TokenType.chunkText,
      point := pt0,
      link := some { previous := none, next := none, content_type := ContentType.text } },
    { event_type := EventType.exit, token_type := TokenType.chunkText,
      point := pt0, link := none } ]

/-- Witness for C8, applying the theorem at the concrete vector `c8Events`
with `a = 0`, `b = 2`. -/
theorem link_to_sets_links_witness :
    (link_to c8Events 0 2).isSome = true := by
  obtain ⟨events', ea', eb', la', lb', hres, _⟩ :=
    link_to_sets_links c8Events 0 2
      { event_type := EventType.enter, token_type := TokenType.chunkText,
        point := pt0,
        link := some { previous := none, next := none, content_type := ContentType.text } }
      { event_type := EventType.exit, token_type := TokenType.chunkText,
        point := pt0, link := none }
      { event_type := EventType.enter, token_type := TokenType.chunkText,
        point := pt0,
        link := some { previous := none, next := none, content_type := ContentType.text } }
      { previous := none, next := none, content_type := ContentType.text }
      { previous := none, next := none, content_type := ContentType.text }
      (by decide) (by decide) (by decide) (by decide) (by decide) (by decide)
      (by decide) (by decide) (by decide) (by decide)
  rw [hres]
  rfl

/-- C9: `link_to(events, a, b)` mutates nothing except `events[a].link.next`
and `events[b].link.previous`: every other event is unchanged, the length is
unchanged, and the two touched events keep all their other fields (event type,
token type, point, content type, and the untouched link direction). -/
theorem link_to_frame (events events' : List Event) (a b : Nat) (hab : a ≠ b)
    (h : link_to events a b = some events') :
    events'.length = events.length ∧
    (∀ i, i ≠ a → i ≠ b → events'[i]? = events[i]?) ∧
    (∃ ea la, events[a]? = some ea ∧ ea.link = some la ∧
      events'[a]? = some { ea with link := some { la with next := some b } }) ∧
    (∃ eb lb, events[b]? = some eb ∧ eb.link = some lb ∧
      events'[b]? = some { eb with link := some { lb with previous := some a } }) := by
  unfold link_to at h
  split at h
  case h_2 => simp at h
  case h_1 ea ea1 eb ha ha1 hb =>
    split at h
    case isFalse => simp at h
    case isTrue hcond =>
      cases hal : ea.link with
      | none => rw [hal] at h; simp at h
      | some la =>
        rw [hal] at h
        simp only [] at h
        rw [List.getElem?_set_ne (fun hh => hab hh), hb] at h
        simp only [] at h
        cases hbl : eb.link with
        | none => rw [hbl] at h; simp at h
        | some lb =>
          rw [hbl] at h
          simp only [] at h
          split at h
          · have hev : events' =
                (events.set a { ea with link := some { la with next := some b } }).set b
                  { eb with link := some { lb with previous := some a } } :=
              (Option.some.inj h).symm
            subst hev
            have hlenA : a < events.length := lt_length_of_getElem?_some ha
            have hlenB : b < events.length := lt_length_of_getElem?_some hb
            refine ⟨by simp, ?_, ?_, ?_⟩
            · intro i hia hib
              rw [List.getElem?_set_ne (fun hh => hib hh.symm),
                List.getElem?_set_ne (fun hh => hia hh.symm)]
            · refine ⟨ea, la, ha, hal, ?_⟩
              rw [List.getElem?_set_ne (fun hh => hab hh.symm),
                List.getElem?_set_eq_of_lt _ hlenA]
            · refine ⟨eb, lb, hb, hbl, ?_⟩
              rw [List.getElem?_set_eq_of_lt _ (by simpa using hlenB)]
          · simp at h

/-- The result of linking `c8Events[0]` to `c8Events[2]`. -/
def c8Linked : List Event :=
  [ { event_type := EventType.enter, token_type := TokenType.chunkText,
      point := pt0,
      link := some { previous := none, next := some 2, content_type := ContentType.text } },
    { event_type := EventType.exit, token_type := TokenType.chunkText,
      point := pt0, link := none },
    { event_type := EventType.enter, token_type := TokenType.chunkText,
      point := pt0,
      link := some { previous := some 0, next := none, content_type := ContentType.text } },
    { event_type := EventType.exit, token_type := TokenType.chunkText,
      point := pt0, link := none } ]

/-- Witness for C9, applying the theorem at `c8Events`, `a = 0`, `b = 2`. -/
theorem link_to_frame_witness :
    link_to c8Events 0 2 = some c8Linked ∧
    c8Linked.length = c8Events.length ∧
    c8Linked[1]? = c8Events[1]? ∧ c8Linked[3]? = c8Events[3]? := by
  have hev : link_to c8Events 0 2 = some c8Linked := by decide
  obtain ⟨hlen, hframe, _, _⟩ := link_to_frame c8Events c8Linked 0 2 (by decide) hev
  exact ⟨hev, hlen, hframe 1 (by decide) (by decide), hframe 3 (by decide) (by decide)⟩

/-! ### The whitespace constructs of `src/construct/partial_space_or_tab.rs`

The tokenizer runtime (`consume`, `enter`, `exit`, `attempt`, `attempt_opt`)
lives in the absent `tokenizer.rs`; the slice of it these constructs use is
modelled from the specification (§4.1, §4.2).  The state functions themselves
(`start`, `inside`, `after_space_or_tab`, `after_eol`,
`after_more_space_or_tab`) are translated from the source; the trampoline's
`Fn(next)` step is realized as direct recursion over the remaining input, and
reading past the end of the input yields `Code.none` (§4.1). -/

/-- Modelled from the spec (§4.1, absent `tokenizer.rs`): how consuming a code
advances the current point.  `VirtualSpace` advances only the column,
`CarriageReturnLineFeed` advances the line by one (two bytes of offset), and a
lone `\n`/`\r` advances the line by one (one byte). -/
def movePoint (p : Point) : Code → Point
  | Code.none => p
  | Code.carriageReturnLineFeed =>
      { line := p.line + 1, column := 1, offset := p.offset + 2, index := p.index + 1 }
  | Code.char c =>
      if c = '\n' ∨ c = '\r' then
        { line := p.line + 1, column := 1, offset := p.offset + 1, index := p.index + 1 }
      else
        { p with column := p.column + 1, offset := p.offset + c.utf8Size, index := p.index + 1 }
  | Code.virtualSpace =>
      { p with column := p.column + 1, index := p.index + 1 }

/-- Modelled from the spec (§3, absent `tokenizer.rs`): the slice of tokenizer
state the whitespace constructs touch — current point, last consumed code, the
append-only event log and the open-token stack. -/
structure TState where
  point : Point
  previous : Code
  events : List Event
  stack : List TokenType
deriving DecidableEq, Repr

/-- Modelled from the spec (§4.2, absent `tokenizer.rs`): `consume` records
the code as `previous` and advances the point; it appends no events. -/
def consume (t : TState) (code : Code) : TState :=
  { t with point := movePoint t.point code, previous := code }

/-- Modelled from the spec (§4.2, absent `tokenizer.rs`): `enter` /
`enter_with_content` append an `Enter` event at the current point (with a
fresh link, both neighbors null, when a content type is given) and push the
token type onto the stack. -/
def enterWith (t : TState) (kind : TokenType) (content_type : Option ContentType) : TState :=
  { t with
    events := t.events ++
      [ { event_type := EventType.enter, token_type := kind, point := t.point,
          link := content_type.map
            (fun ct => { previous := none, next := none, content_type := ct }) } ],
    stack := kind :: t.stack }

/-- Modelled from the spec (§4.2, absent `tokenizer.rs`): `exit` pops the
stack, asserting the top equals the token type (abort otherwise), and appends
an `Exit` event at the current point. -/
def exitTok (t : TState) (kind : TokenType) : Option TState :=
  match t.stack with
  | [] => none
  | k :: rest =>
    if k = kind then
      some { t with
        events := t.events ++
          [ { event_type := EventType.exit, token_type := kind, point := t.point,
              link := none } ],
        stack := rest }
    else none

/-- The `link(&mut tokenizer.events, index)` call of
`partial_space_or_tab.rs` line 140, with `index = events.len() - 1` (`usize`
subtraction). -/
def linkLast (t : TState) : Option TState :=
  match usizeSub t.events.length 1 with
  | none => none
  | some index =>
    match link t.events index with
    | none => none
    | some evs => some { t with events := evs }

/-- `Options` from `partial_space_or_tab.rs` lines 12-23. -/
structure Options where
  min : Nat
  max : Nat
  kind : TokenType
  connect : Bool
  content_type : Option ContentType
deriving DecidableEq, Repr

/-- `Info` from `partial_space_or_tab.rs` lines 36-41. -/
structure Info where
  size : Nat
  options : Options
deriving DecidableEq, Repr

/-- `EolOptions` from `partial_space_or_tab.rs` lines 27-32. -/
structure EolOptions where
  connect : Bool
  content_type : Option ContentType
deriving DecidableEq, Repr

/-- `EolInfo` from `partial_space_or_tab.rs` lines 45-52. -/
structure EolInfo where
  connect : Bool
  ok : Bool
  options : EolOptions
deriving DecidableEq, Repr

/-- A terminal state-function result: `Ok` or `Nok` (§4.2). -/
inductive State where
  | ok
  | nok
deriving DecidableEq, Repr

/-- The codes matched by `Code::VirtualSpace | Code::Char('\t' | ' ')`. -/
def isSpaceOrTabCode : Code → Bool
  | Code.virtualSpace => true
  | Code.char c => c = '\t' ∨ c = ' '
  | _ => false

/-- `usize::MAX` on a 64-bit target (`space_or_tab` uses it as `max`). -/
def usizeMax : Nat := 2 ^ 64 - 1

/-- The shared terminal branch of `inside` (`partial_space_or_tab.rs` lines
171-181): emit the `Exit`, succeed iff at least `min` codes were consumed, and
give the unconsumed code back. -/
def insideDone (t : TState) (code : Code) (rest : List Code) (info : Info) :
    Option (TState × State × Option (List Code)) :=
  match exitTok t info.options.kind with
  | none => none
  | some t1 =>
    some (t1,
      if info.options.min ≤ info.size then State.ok else State.nok,
      some (code :: rest))

/-- `inside` from `partial_space_or_tab.rs` lines 164-183, driven over the
remaining input. -/
def inside (t : TState) (code : Code) (rest : List Code) (info : Info) :
    Option (TState × State × Option (List Code)) :=
  if isSpaceOrTabCode code ∧ info.size < info.options.max then
    let t1 := consume t code
    let info1 := { info with size := info.size + 1 }
    match rest with
    | [] => insideDone t1 Code.none [] info1
    | c :: rest1 => inside t1 c rest1 info1
  else insideDone t code rest info

/-- `start` from `partial_space_or_tab.rs` lines 133-156. -/
def start (t : TState) (code : Code) (rest : List Code) (info : Info) :
    Option (TState × State × Option (List Code)) :=
  if isSpaceOrTabCode code ∧ 0 < info.options.max then
    let t1 := enterWith t info.options.kind info.options.content_type
    match (if info.options.content_type.isSome then linkLast t1 else some t1) with
    | none => none
    | some t2 =>
      let t3 := consume t2 code
      let info1 := { info with size := info.size + 1 }
      match rest with
      | [] => insideDone t3 Code.none [] info1
      | c :: rest1 => inside t3 c rest1 info1
  else
    some (t,
      if info.options.min = 0 then State.ok else State.nok,
      some (code :: rest))

/-- `space_or_tab_with_options` from `partial_space_or_tab.rs` lines 79-81:
run `start` with `size = 0` over an input stream. -/
def space_or_tab_run (options : Options) (t : TState) (input : List Code) :
    Option (TState × State × Option (List Code)) :=
  match input with
  | [] => start t Code.none [] { size := 0, options := options }
  | c :: rest => start t c rest { size := 0, options := options }

/-- The number of codes `space_or_tab` consumes from `input` when `cap` more
codes may still be consumed: the length of the leading whitespace run, capped. -/
def wsLen (cap : Nat) (input : List Code) : Nat :=
  Nat.min cap (input.takeWhile isSpaceOrTabCode).length

/-- Residual input after consuming `n` codes; reading past the end of the
input yields the `Code.none` sentinel (§4.1). -/
def residual (input : List Code) (n : Nat) : List Code :=
  if n < input.length then input.drop n else [Code.none]

/-- An `Exit` event without link, as `exit` appends it. -/
def exitEvent (kind : TokenType) (p : Point) : Event :=
  { event_type := EventType.exit, token_type := kind, point := p, link := none }

/-- An `Enter` event without link, as `enter` appends it. -/
def enterEvent (kind : TokenType) (p : Point) : Event :=
  { event_type := EventType.enter, token_type := kind, point := p, link := none }

theorem natMin_eq (a b : Nat) : Nat.min a b = if a ≤ b then a else b := Nat.min_def

theorem wsLen_cons_ws {cap : Nat} (hcap : 0 < cap) {c : Code}
    (hc : isSpaceOrTabCode c = true) (l : List Code) :
    wsLen cap (c :: l) = wsLen (cap - 1) l + 1 := by
  simp only [wsLen, List.takeWhile_cons, hc, if_true, List.length_cons]
  rw [natMin_eq, natMin_eq]
  split <;> split <;> omega

theorem wsLen_cons_not_ws {cap : Nat} {c : Code}
    (hc : isSpaceOrTabCode c = false) (l : List Code) :
    wsLen cap (c :: l) = 0 := by
  simp [wsLen, List.takeWhile_cons, hc]

theorem wsLen_cap_zero (input : List Code) : wsLen 0 input = 0 := by
  simp [wsLen]

theorem wsLen_nil (cap : Nat) : wsLen cap [] = 0 := by
  simp [wsLen]

theorem residual_cons (x : Code) (l : List Code) (n : Nat) :
    residual (x :: l) (n + 1) = residual l n := by
  simp only [residual, List.length_cons, List.drop_succ_cons]
  by_cases h : n < l.length
  · rw [if_pos h, if_pos (by omega)]
  · rw [if_neg h, if_neg (by omega)]

/-- Characterization of `inside`: starting with the construct's token open on
the stack, it consumes exactly the capped leading whitespace run, appends the
single `Exit`, pops the stack, succeeds iff the total size reaches `min`, and
returns the unconsumed residue. -/
theorem inside_spec (rest : List Code) : ∀ (t : TState) (code : Code) (info : Info)
    (s : List TokenType), t.stack = info.options.kind :: s →
    inside t code rest info = some
      ( { point := List.foldl movePoint t.point
            ((code :: rest).take (wsLen (info.options.max - info.size) (code :: rest))),
          previous := List.foldl (fun _ c => c) t.previous
            ((code :: rest).take (wsLen (info.options.max - info.size) (code :: rest))),
          events := t.events ++
            [ exitEvent info.options.kind
                (List.foldl movePoint t.point
                  ((code :: rest).take
                    (wsLen (info.options.max - info.size) (code :: rest)))) ],
          stack := s },
        if info.options.min ≤ info.size +
            wsLen (info.options.max - info.size) (code :: rest)
          then State.ok else State.nok,
        some (residual (code :: rest)
          (wsLen (info.options.max - info.size) (code :: rest)))) := by
  induction rest with
  | nil =>
    intro t code info s hst
    by_cases hc : isSpaceOrTabCode code = true ∧ info.size < info.options.max
    · have hcs := hc.2
      have hk : wsLen (info.options.max - info.size) [code] = 1 := by
        rw [wsLen_cons_ws (by omega) hc.1, wsLen_nil]
      rw [hk]
      unfold inside
      rw [if_pos hc]
      simp only [insideDone, exitTok, consume, hst]
      simp [residual, exitEvent]
    · have hk : wsLen (info.options.max - info.size) [code] = 0 := by
        rcases not_and_or.mp hc with h | h
        · exact wsLen_cons_not_ws (by simpa using h) _
        · have hcap : info.options.max - info.size = 0 := by omega
          rw [hcap]
          exact wsLen_cap_zero _
      rw [hk]
      unfold inside
      rw [if_neg hc]
      simp only [insideDone, exitTok, hst]
      simp [residual, exitEvent]
  | cons c rest1 ih =>
    intro t code info s hst
    by_cases hc : isSpaceOrTabCode code = true ∧ info.size < info.options.max
    · have hcs := hc.2
      have hk : wsLen (info.options.max - info.size) (code :: c :: rest1) =
          wsLen (info.options.max - (info.size + 1)) (c :: rest1) + 1 := by
        have hcap : info.options.max - info.size - 1 =
            info.options.max - (info.size + 1) := by omega
        rw [wsLen_cons_ws (by omega) hc.1, hcap]
      have harith : info.options.min ≤ info.size +
            (wsLen (info.options.max - (info.size + 1)) (c :: rest1) + 1) ↔
          info.options.min ≤ info.size + 1 +
            wsLen (info.options.max - (info.size + 1)) (c :: rest1) := by
        omega
      rw [hk]
      unfold inside
      rw [if_pos hc]
      simp only [residual_cons, List.take_succ_cons, List.foldl_cons]
      rw [if_congr harith rfl rfl]
      exact ih (consume t code) c { info with size := info.size + 1 } s hst
    · have hk : wsLen (info.options.max - info.size) (code :: c :: rest1) = 0 := by
        rcases not_and_or.mp hc with h | h
        · exact wsLen_cons_not_ws (by simpa using h) _
        · have hcap : info.options.max - info.size = 0 := by omega
          rw [hcap]
          exact wsLen_cap_zero _
      rw [hk]
      unfold inside
      rw [if_neg hc]
      simp only [insideDone, exitTok, hst]
      simp [residual, exitEvent]

/-- `start`'s rejecting branch: when the first code is not whitespace (or
`max = 0`), nothing is consumed and no event is emitted; the result is `Ok`
iff `min = 0`. -/
theorem start_spec_zero (t : TState) (code : Code) (rest : List Code) (options : Options)
    (hn : wsLen options.max (code :: rest) = 0) :
    start t code rest { size := 0, options := options } =
      some (t, if options.min = 0 then State.ok else State.nok, some (code :: rest)) := by
  have hcond : ¬(isSpaceOrTabCode code = true ∧ 0 < options.max) := by
    rintro ⟨h1, h2⟩
    rw [wsLen_cons_ws h2 h1] at hn
    omega
  unfold start
  simp only []
  rw [if_neg hcond]

/-- `start`'s consuming branch (no content type, so no linking): the capped
leading whitespace run is consumed, one `Enter`/`Exit` pair around it is
appended, and the result is `Ok` iff the run reaches `min`. -/
theorem start_spec_pos (t : TState) (code : Code) (rest : List Code) (options : Options)
    (hct : options.content_type = none)
    (hn : 0 < wsLen options.max (code :: rest)) :
    start t code rest { size := 0, options := options } =
      some
        ( { point := List.foldl movePoint t.point
              ((code :: rest).take (wsLen options.max (code :: rest))),
            previous := List.foldl (fun _ c => c) t.previous
              ((code :: rest).take (wsLen options.max (code :: rest))),
            events := t.events ++
              [ enterEvent options.kind t.point,
                exitEvent options.kind
                  (List.foldl movePoint t.point
                    ((code :: rest).take (wsLen options.max (code :: rest)))) ],
            stack := t.stack },
          if options.min ≤ wsLen options.max (code :: rest) then State.ok else State.nok,
          some (residual (code :: rest) (wsLen options.max (code :: rest))) ) := by
  have hws : isSpaceOrTabCode code = true ∧ 0 < options.max := by
    constructor
    · by_contra h
      rw [wsLen_cons_not_ws (by simpa using h)] at hn
      omega
    · by_contra h
      have hz : options.max = 0 := by omega
      rw [hz, wsLen_cap_zero] at hn
      omega
  have hk : wsLen options.max (code :: rest) = wsLen (options.max - 1) rest + 1 :=
    wsLen_cons_ws hws.2 hws.1 rest
  rw [hk]
  unfold start
  simp only []
  rw [if_pos hws, hct]
  simp only [Option.isSome_none, Bool.false_eq_true, if_false]
  cases rest with
  | nil =>
    rw [wsLen_nil]
    simp only [insideDone, exitTok, enterWith, consume, hct]
    simp [residual, exitEvent, enterEvent, movePoint]
  | cons c rest1 =>
    have harith : options.min ≤ wsLen (options.max - 1) (c :: rest1) + 1 ↔
        options.min ≤ 1 + wsLen (options.max - 1) (c :: rest1) := by omega
    have happ : t.events ++
        [ enterEvent options.kind t.point,
          exitEvent options.kind
            (List.foldl movePoint (movePoint t.point code)
              ((c :: rest1).take (wsLen (options.max - 1) (c :: rest1)))) ] =
        (t.events ++ [enterEvent options.kind t.point]) ++
          [ exitEvent options.kind
              (List.foldl movePoint (movePoint t.point code)
                ((c :: rest1).take (wsLen (options.max - 1) (c :: rest1)))) ] := by
      simp
    simp only [residual_cons, List.take_succ_cons, List.foldl_cons]
    rw [if_congr harith rfl rfl, happ]
    exact inside_spec rest1
      (consume (enterWith t options.kind none) code) c
      { size := 1, options := options } t.stack rfl

theorem take_wsLen_ws (cap : Nat) (input : List Code) :
    ∀ c ∈ input.take (wsLen cap input), isSpaceOrTabCode c = true := by
  induction input generalizing cap with
  | nil => simp
  | cons x l ih =>
    by_cases hx : isSpaceOrTabCode x = true
    · by_cases hcap : 0 < cap
      · rw [wsLen_cons_ws hcap hx, List.take_succ_cons]
        intro c hc
        rcases List.mem_cons.mp hc with h | h
        · rw [h]; exact hx
        · exact ih (cap - 1) c h
      · have hz : cap = 0 := by omega
        rw [hz, wsLen_cap_zero]
        simp
    · rw [wsLen_cons_not_ws (by simpa using hx)]
      simp

theorem wsLen_le_cap (cap : Nat) (input : List Code) : wsLen cap input ≤ cap :=
  Nat.min_le_left _ _

/-- C4 amended: for every `min`, `max` and input, `space_or_tab` (without a
content type, as built by `space_or_tab_min_max`) consumes exactly the leading
run of `' '`/`'\t'`/`VirtualSpace` codes capped at `max`; it emits exactly one
`Enter(kind)…Exit(kind)` pair around the consumed codes when at least one code
is consumed and no event at all otherwise; and it yields `Ok` iff the consumed
count is at least `min`. -/
theorem space_or_tab_spec (options : Options) (t : TState) (input : List Code)
    (hct : options.content_type = none) :
    ∃ t' st rem, space_or_tab_run options t input = some (t', st, rem) ∧
      (∀ c ∈ input.take (wsLen options.max input), isSpaceOrTabCode c = true) ∧
      wsLen options.max input ≤ options.max ∧
      (st = State.ok ↔ options.min ≤ wsLen options.max input) ∧
      rem = some (residual input (wsLen options.max input)) ∧
      (0 < wsLen options.max input →
        t'.events = t.events ++
          [ enterEvent options.kind t.point,
            exitEvent options.kind
              (List.foldl movePoint t.point (input.take (wsLen options.max input))) ]) ∧
      (wsLen options.max input = 0 → t' = t) := by
  cases input with
  | nil =>
    rw [wsLen_nil]
    refine ⟨t, if options.min = 0 then State.ok else State.nok, some [Code.none],
      start_spec_zero t Code.none [] options (wsLen_cons_not_ws (by decide) []),
      ?_, ?_, ?_, ?_, ?_, ?_⟩
    · simp
    · omega
    · by_cases hm : options.min = 0
      · rw [if_pos hm]
        simp [hm]
      · rw [if_neg hm]
        constructor
        · intro h
          exact absurd h (by simp)
        · intro h
          omega
    · simp [residual]
    · intro h
      omega
    · intro _
      rfl
  | cons c0 rest0 =>
    by_cases hn : 0 < wsLen options.max (c0 :: rest0)
    · refine ⟨_, _, _, start_spec_pos t c0 rest0 options hct hn,
        take_wsLen_ws _ _, wsLen_le_cap _ _, ?_, rfl, fun _ => rfl, fun h0 => absurd h0 (by omega)⟩
      by_cases hm : options.min ≤ wsLen options.max (c0 :: rest0)
      · rw [if_pos hm]
        simp [hm]
      · rw [if_neg hm]
        constructor
        · intro h
          exact absurd h (by simp)
        · intro h
          exact absurd h hm
    · have hz : wsLen options.max (c0 :: rest0) = 0 := by omega
      rw [hz]
      refine ⟨t, if options.min = 0 then State.ok else State.nok, some (c0 :: rest0),
        start_spec_zero t c0 rest0 options hz, ?_, ?_, ?_, ?_, ?_, ?_⟩
      · simp
      · omega
      · by_cases hm : options.min = 0
        · rw [if_pos hm]
          simp [hm]
        · rw [if_neg hm]
          constructor
          · intro h
            exact absurd h (by simp)
          · intro h
            omega
      · simp [residual]
      · intro h
        omega
      · intro _
        rfl

/-- The empty tokenizer state used for concrete runs. -/
def t0 : TState := { point := pt0, previous := Code.none, events := [], stack := [] }

/-- C4 counterexample: with `min = 0`, `max = 1` and input `"a"`, the
construct succeeds (`min = 0` is reached) but emits no `Enter`/`Exit` pair at
all — the state, including the event log, is returned untouched — refuting
that one pair is emitted for every input. -/
theorem space_or_tab_no_pair_cex :
    space_or_tab_run
        { min := 0, max := 1, kind := TokenType.spaceOrTab,
          connect := false, content_type := none }
        t0 [Code.char 'a'] =
      some (t0, State.ok, some [Code.char 'a']) ∧ t0.events = [] := by
  constructor
  · decide
  · rfl

/-- Witness for C4 (amended): `min = 1`, `max = 2`, input `"␣␣␣a"` — the run
consumes two spaces (capped by `max`), emits the pair, and yields `Ok`. -/
theorem space_or_tab_spec_witness :
    ∃ t' st rem,
      space_or_tab_run
          { min := 1, max := 2, kind := TokenType.spaceOrTab,
            connect := false, content_type := none }
          t0 [Code.char ' ', Code.char ' ', Code.char ' ', Code.char 'a'] =
        some (t', st, rem) ∧ st = State.ok := by
  obtain ⟨t', st, rem, hrun, _, _, hok, _, _, _⟩ :=
    space_or_tab_spec
      { min := 1, max := 2, kind := TokenType.spaceOrTab,
        connect := false, content_type := none }
      t0 [Code.char ' ', Code.char ' ', Code.char ' ', Code.char 'a'] rfl
  exact ⟨t', st, rem, hrun, hok.mpr (by decide)⟩

/-! ### `space_or_tab_eol` -/

/-- The line-ending codes matched by
`Code::CarriageReturnLineFeed | Code::Char('\n' | '\r')`. -/
def isEolCode : Code → Bool
  | Code.carriageReturnLineFeed => true
  | Code.char c => c = '\n' ∨ c = '\r'
  | _ => false

/-- The codes `after_more_space_or_tab` rejects (a blank line follows):
`Code::None | Code::CarriageReturnLineFeed | Code::Char('\n' | '\r')`. -/
def isBlankCode : Code → Bool
  | Code.none => true
  | c => isEolCode c

/-- `after_more_space_or_tab` from `partial_space_or_tab.rs` lines 253-263. -/
def after_more_space_or_tab (t : TState) (code : Code) (rest : List Code) :
    Option (TState × State × Option (List Code)) :=
  if code = Code.none ∨ code = Code.carriageReturnLineFeed ∨
      code = Code.char '\n' ∨ code = Code.char '\r' then
    some (t, State.nok, none)
  else
    some (t, State.ok, some (code :: rest))

/-- `after_eol` from `partial_space_or_tab.rs` lines 229-240:
`attempt_opt(space_or_tab(1, MAX), after_more_space_or_tab)`.  `attempt_opt`
(absent `tokenizer.rs`, spec §4.2.1) keeps the side effects and continues with
the remainder on `Ok`, and restores the snapshot and replays the fed codes on
`Nok`; either way `after_more_space_or_tab` is the continuation. -/
def after_eol (t : TState) (code : Code) (rest : List Code) (info : EolInfo) :
    Option (TState × State × Option (List Code)) :=
  match space_or_tab_run
      { kind := TokenType.spaceOrTab, min := 1, max := usizeMax,
        content_type := info.options.content_type, connect := info.connect }
      t (code :: rest) with
  | none => none
  | some (t1, st1, rem1) =>
    match st1 with
    | State.ok =>
      match rem1 with
      | some (c :: r) => after_more_space_or_tab t1 c r
      | some [] => after_more_space_or_tab t1 Code.none []
      | none => none
    | State.nok => after_more_space_or_tab t code rest

/-- `after_space_or_tab` from `partial_space_or_tab.rs` lines 196-215. -/
def after_space_or_tab (t : TState) (code : Code) (rest : List Code) (info : EolInfo) :
    Option (TState × State × Option (List Code)) :=
  if code = Code.carriageReturnLineFeed ∨ code = Code.char '\n' ∨ code = Code.char '\r' then
    let t1 := enterWith t TokenType.lineEnding info.options.content_type
    match (if info.connect then linkLast t1 else some t1) with
    | none => none
    | some t2 =>
      let info1 :=
        if info.connect then info
        else if info.options.content_type.isSome then { info with connect := true }
        else info
      let t3 := consume t2 code
      match exitTok t3 TokenType.lineEnding with
      | none => none
      | some t4 =>
        match rest with
        | [] => after_eol t4 Code.none [] info1
        | c :: r => after_eol t4 c r info1
  else if info.ok = true then some (t, State.ok, some (code :: rest))
  else some (t, State.nok, none)

/-- `space_or_tab_eol_with_options` from `partial_space_or_tab.rs` lines
97-126: `attempt(space_or_tab(1, MAX), ...)`, recording `ok` (and `connect`
when a content type is present) on success, then `after_space_or_tab`.
`attempt` (absent `tokenizer.rs`, spec §4.2.1) keeps the side effects and
continues with the remainder on `Ok`, and restores the snapshot and replays
the fed codes on `Nok`. -/
def space_or_tab_eol_run (options : EolOptions) (t : TState) (input : List Code) :
    Option (TState × State × Option (List Code)) :=
  match space_or_tab_run
      { kind := TokenType.spaceOrTab, min := 1, max := usizeMax,
        content_type := options.content_type, connect := options.connect }
      t input with
  | none => none
  | some (t1, st1, rem1) =>
    match st1 with
    | State.ok =>
      let info1 : EolInfo :=
        { connect := options.content_type.isSome, ok := true, options := options }
      match rem1 with
      | some (c :: r) => after_space_or_tab t1 c r info1
      | some [] => after_space_or_tab t1 Code.none [] info1
      | none => none
    | State.nok =>
      let info0 : EolInfo := { connect := false, ok := false, options := options }
      match input with
      | [] => after_space_or_tab t Code.none [] info0
      | c :: r => after_space_or_tab t c r info0

/-- The code at position `i` of the input; past the end it is `Code.none`
(§4.1: the runtime returns `None` when reading past the end). -/
def nthCode (input : List Code) (i : Nat) : Code :=
  (input.drop i).headD Code.none

/-- The length of the leading whitespace run. -/
def wsRun (input : List Code) : Nat :=
  (input.takeWhile isSpaceOrTabCode).length

theorem wsRun_le_length (input : List Code) : wsRun input ≤ input.length := by
  unfold wsRun
  induction input with
  | nil => simp
  | cons x l ih =>
    rw [List.takeWhile_cons]
    split
    · simp only [List.length_cons]
      omega
    · simp

theorem wsLen_usizeMax (input : List Code) (hlen : input.length < usizeMax) :
    wsLen usizeMax input = wsRun input := by
  have h := wsRun_le_length input
  unfold wsRun at h ⊢
  unfold wsLen
  rw [natMin_eq]
  split <;> omega

theorem residual_eq_cons (input : List Code) (n : Nat) (hn : n ≤ input.length) :
    residual input n = nthCode input n :: input.drop (n + 1) := by
  unfold residual nthCode
  by_cases h : n < input.length
  · rw [if_pos h]
    have htail : input.drop (n + 1) = (input.drop n).tail := (List.tail_drop input n).symm
    rw [htail]
    cases hd : input.drop n with
    | nil =>
      exfalso
      have hlen2 : (input.drop n).length = input.length - n := List.length_drop n input
      rw [hd] at hlen2
      simp at hlen2
      omega
    | cons a l =>
      simp
  · rw [if_neg h]
    have hn' : n = input.length := by omega
    rw [hn', List.drop_length, List.drop_eq_nil_of_le (by omega)]
    simp

theorem nthCode_drop (input : List Code) (m i : Nat) :
    nthCode (input.drop m) i = nthCode input (m + i) := by
  unfold nthCode
  rw [List.drop_drop]

theorem isBlankCode_iff (c : Code) :
    isBlankCode c = true ↔ (c = Code.none ∨ c = Code.carriageReturnLineFeed ∨
      c = Code.char '\n' ∨ c = Code.char '\r') := by
  cases c with
  | none => simp [isBlankCode]
  | carriageReturnLineFeed => simp [isBlankCode, isEolCode]
  | char ch => simp [isBlankCode, isEolCode]
  | virtualSpace => simp [isBlankCode, isEolCode]

/-- `after_eol` succeeds exactly when the code after the second (optional)
whitespace run is not a blank-line code. -/
theorem after_eol_ok_iff (t : TState) (code : Code) (rest : List Code) (info : EolInfo)
    (hct : info.options.content_type = none)
    (hlen : (code :: rest).length < usizeMax) :
    ∃ t' st rem, after_eol t code rest info = some (t', st, rem) ∧
      (st = State.ok ↔
        isBlankCode (nthCode (code :: rest) (wsRun (code :: rest))) = false) := by
  have hws : wsLen usizeMax (code :: rest) = wsRun (code :: rest) :=
    wsLen_usizeMax _ hlen
  obtain ⟨t1, st1, rem1, hrun, _, _, hok, hrem, _, _⟩ :=
    space_or_tab_spec
      { kind := TokenType.spaceOrTab, min := 1, max := usizeMax,
        content_type := info.options.content_type, connect := info.connect }
      t (code :: rest) hct
  simp only [] at hok hrem
  unfold after_eol
  rw [hrun]
  simp only []
  subst hrem
  cases st1 with
  | ok =>
    have h1 : 1 ≤ wsRun (code :: rest) := by
      rw [← hws]
      exact hok.mp rfl
    rw [hws, residual_eq_cons _ _ (le_trans (wsRun_le_length _) (le_refl _))]
    simp only []
    unfold after_more_space_or_tab
    by_cases hb : isBlankCode (nthCode (code :: rest) (wsRun (code :: rest))) = true
    · rw [if_pos ((isBlankCode_iff _).mp hb)]
      refine ⟨t1, State.nok, none, rfl, ?_⟩
      simp [hb]
    · rw [if_neg (fun hcontra => hb ((isBlankCode_iff _).mpr hcontra))]
      have hbf : isBlankCode (nthCode (code :: rest) (wsRun (code :: rest))) = false := by
        revert hb
        cases isBlankCode (nthCode (code :: rest) (wsRun (code :: rest))) <;> simp
      exact ⟨t1, State.ok, _, rfl, by simp [hbf]⟩
  | nok =>
    have h0 : wsRun (code :: rest) = 0 := by
      rw [← hws]
      by_contra h
      exact State.noConfusion (hok.mpr (by omega))
    rw [h0]
    have hnth : nthCode (code :: rest) 0 = code := rfl
    rw [hnth]
    unfold after_more_space_or_tab
    by_cases hb : isBlankCode code = true
    · rw [if_pos ((isBlankCode_iff _).mp hb)]
      refine ⟨t, State.nok, none, rfl, ?_⟩
      simp [hb]
    · rw [if_neg (fun hcontra => hb ((isBlankCode_iff _).mpr hcontra))]
      have hbf : isBlankCode code = false := by
        revert hb
        cases isBlankCode code <;> simp
      exact ⟨t, State.ok, _, rfl, by simp [hbf]⟩

/-- `after_space_or_tab` succeeds exactly when either the code is not a line
ending and the first whitespace run succeeded, or the code is a line ending
and the code after the following whitespace run is not a blank-line code. -/
theorem after_space_or_tab_ok_iff (t : TState) (code : Code) (rest : List Code)
    (info : EolInfo)
    (hct : info.options.content_type = none) (hconn : info.connect = false)
    (hlen : rest.length + 1 < usizeMax) :
    ∃ t' st rem, after_space_or_tab t code rest info = some (t', st, rem) ∧
      (st = State.ok ↔
        (isEolCode code = false ∧ info.ok = true) ∨
        (isEolCode code = true ∧
          isBlankCode (nthCode rest (wsRun rest)) = false)) := by
  unfold after_space_or_tab
  by_cases he : code = Code.carriageReturnLineFeed ∨ code = Code.char '\n' ∨
      code = Code.char '\r'
  · have heol : isEolCode code = true := by
      rcases he with h | h | h <;> rw [h] <;> decide
    rw [if_pos he, hconn, hct]
    simp only [Bool.false_eq_true, if_false, Option.isSome_none, enterWith, consume,
      exitTok, eq_self_iff_true, if_true]
    cases rest with
    | nil =>
      simp only []
      obtain ⟨t', st, rem, hrun, hiff⟩ :=
        after_eol_ok_iff _ Code.none [] info hct
          (by
            have h1 : ([Code.none] : List Code).length = 1 := rfl
            rw [h1, show usizeMax = 2 ^ 64 - 1 from rfl]
            norm_num)
      refine ⟨t', st, rem, hrun, ?_⟩
      rw [hiff]
      simp [heol, nthCode, wsRun, isBlankCode, isSpaceOrTabCode, List.takeWhile]
    | cons c r =>
      simp only []
      obtain ⟨t', st, rem, hrun, hiff⟩ :=
        after_eol_ok_iff _ c r info hct
          (by simp only [List.length_cons] at hlen ⊢; omega)
      refine ⟨t', st, rem, hrun, ?_⟩
      rw [hiff]
      simp [heol]
  · have heol : isEolCode code = false := by
      cases code with
      | none => rfl
      | virtualSpace => rfl
      | carriageReturnLineFeed => exact absurd (Or.inl rfl) he
      | char ch =>
        have h1 : ¬ ch = '\n' := fun hh => he (Or.inr (Or.inl (by rw [hh])))
        have h2 : ¬ ch = '\r' := fun hh => he (Or.inr (Or.inr (by rw [hh])))
        simp [isEolCode, h1, h2]
    rw [if_neg he]
    by_cases hko : info.ok = true
    · rw [if_pos hko]
      exact ⟨t, State.ok, some (code :: rest), rfl, by simp [heol, hko]⟩
    · rw [if_neg hko]
      exact ⟨t, State.nok, none, rfl, by simp [heol, hko]⟩

/-- C5: `space_or_tab_eol` (default options) results in `Ok` exactly for
inputs of shape (a) one-or-more whitespace codes not followed by a line
ending, or (b) zero-or-more whitespace, exactly one line ending, zero-or-more
whitespace, with the code after the second whitespace run not a blank-line
code; in every other case — in particular whenever, after the line ending and
the second whitespace run, the next code is `'\n'`, `'\r'`,
`CarriageReturnLineFeed`, or the end of the input — it results in `Nok`. -/
theorem space_or_tab_eol_spec (t : TState) (input : List Code)
    (hlen : input.length + 1 < usizeMax) :
    ∃ t' st rem,
      space_or_tab_eol_run { connect := false, content_type := none } t input =
        some (t', st, rem) ∧
      (st = State.ok ↔
        (1 ≤ wsRun input ∧ isEolCode (nthCode input (wsRun input)) = false) ∨
        (isEolCode (nthCode input (wsRun input)) = true ∧
          isBlankCode (nthCode input
            (wsRun input + 1 + wsRun (input.drop (wsRun input + 1)))) = false)) := by
  have hws : wsLen usizeMax input = wsRun input := wsLen_usizeMax _ (by omega)
  obtain ⟨t1, st1, rem1, hrun, _, _, hok, hrem, _, _⟩ :=
    space_or_tab_spec
      { kind := TokenType.spaceOrTab, min := 1, max := usizeMax,
        content_type := none, connect := false }
      t input rfl
  simp only [] at hok hrem
  unfold space_or_tab_eol_run
  rw [hrun]
  simp only []
  subst hrem
  cases st1 with
  | ok =>
    have h1 : 1 ≤ wsRun input := by
      rw [← hws]
      exact hok.mp rfl
    rw [hws, residual_eq_cons _ _ (wsRun_le_length _)]
    simp only [Option.isSome_none]
    obtain ⟨t2, st2, rem2, hrun2, hiff⟩ :=
      after_space_or_tab_ok_iff t1 (nthCode input (wsRun input))
        (input.drop (wsRun input + 1))
        { connect := false, ok := true, options := { connect := false, content_type := none } }
        rfl rfl
        (by
          have hd : (input.drop (wsRun input + 1)).length = input.length - (wsRun input + 1) :=
            List.length_drop _ _
          omega)
    refine ⟨t2, st2, rem2, hrun2, ?_⟩
    rw [hiff, nthCode_drop]
    constructor
    · rintro (⟨hne, _⟩ | ⟨he, hb⟩)
      · exact Or.inl ⟨h1, hne⟩
      · exact Or.inr ⟨he, hb⟩
    · rintro (⟨_, hne⟩ | ⟨he, hb⟩)
      · exact Or.inl ⟨hne, rfl⟩
      · exact Or.inr ⟨he, hb⟩
  | nok =>
    have h0 : wsRun input = 0 := by
      rw [← hws]
      by_contra h
      exact State.noConfusion (hok.mpr (by omega))
    rw [h0]
    cases input with
    | nil =>
      obtain ⟨t2, st2, rem2, hrun2, hiff⟩ :=
        after_space_or_tab_ok_iff t Code.none []
          { connect := false, ok := false, options := { connect := false, content_type := none } }
          rfl rfl (by rw [show usizeMax = 2 ^ 64 - 1 from rfl]; norm_num)
      refine ⟨t2, st2, rem2, hrun2, ?_⟩
      rw [hiff]
      simp [nthCode, wsRun, isEolCode, isBlankCode, List.takeWhile]
    | cons c r =>
      obtain ⟨t2, st2, rem2, hrun2, hiff⟩ :=
        after_space_or_tab_ok_iff t c r
          { connect := false, ok := false, options := { connect := false, content_type := none } }
          rfl rfl (by simp only [List.length_cons] at hlen; omega)
      refine ⟨t2, st2, rem2, hrun2, ?_⟩
      rw [hiff]
      have hnth0 : nthCode (c :: r) 0 = c := rfl
      have hdrop : (c :: r).drop (0 + 1) = r := rfl
      rw [hnth0, hdrop]
      have hnth1 : nthCode r (wsRun r) = nthCode (c :: r) (0 + 1 + wsRun r) := by
        rw [show (0 + 1 + wsRun r) = 1 + wsRun r by omega,
          ← nthCode_drop (c :: r) 1 (wsRun r)]
        rfl
      rw [← hnth1]
      constructor
      · rintro (⟨_, hko⟩ | ⟨he, hb⟩)
        · exact absurd hko (by simp)
        · exact Or.inr ⟨he, hb⟩
      · rintro (⟨h10, _⟩ | ⟨he, hb⟩)
        · exact absurd h10 (by omega)
        · exact Or.inr ⟨he, hb⟩

/-- Witness for C5 at input `"␣⏎␣b"`: one space, a line ending, one space,
then `'b'` — shape (b) with no blank line — yields `Ok`. -/
theorem space_or_tab_eol_spec_witness :
    (space_or_tab_eol_run { connect := false, content_type := none } t0
        [Code.char ' ', Code.carriageReturnLineFeed, Code.char ' ', Code.char 'b']).map
      (fun r => r.2.1) = some State.ok := by
  obtain ⟨t', st, rem, hrun, hiff⟩ :=
    space_or_tab_eol_spec t0
      [Code.char ' ', Code.carriageReturnLineFeed, Code.char ' ', Code.char 'b']
      (by rw [show usizeMax = 2 ^ 64 - 1 from rfl]; norm_num)
  rw [hrun]
  have hst : st = State.ok := hiff.mpr (by decide)
  rw [hst]
  rfl

/-! ### The partitioning and feeding loops of `subtokenize`

`subtokenize` (`src/subtokenize.rs` lines 61-185) walks the outer event
vector; for each chain head it feeds the chain's spans to a fresh
sub-tokenizer (lines 89-115), partitions the produced subevents into one
slice per chain member while fixing up deep links (lines 119-161), and
schedules one `EditMap` replacement per slice (lines 163-175).  The
sub-tokenizer itself (`Tokenizer::push`, absent `tokenizer.rs`) is opaque
here: the partitioning loop is embedded over its resulting event vector, and
the feeding loop over the calls it makes. -/

/-- The state of the partitioning loop (`subtokenize.rs` lines 119-122):
the sub-tokenizer's event vector being fixed up, the current chain member
`link_index`, the collected `(link_index, slice_start)` pairs, the start of
the open slice, and the surrounding pass's `done` flag. -/
structure PartState where
  subevents : List Event
  link_index : Nat
  slices : List (Nat × Nat)
  slice_start : Nat
  done : Bool
deriving DecidableEq, Repr

/-- The boundary test of the partitioning loop (`subtokenize.rs` lines
129-135): on an `Enter` subevent that starts at or past the end of the
current chain member, record the slice and advance `link_index` to the
member's `link.next` (the `unwrap`s are aborts). -/
def partitionBoundary (events : List Event) (subindex : Nat) (st : PartState)
    (subevent : Event) : Option PartState :=
  if subevent.event_type = EventType.enter then
    match events[st.link_index + 1]? with
    | none => none
    | some e2 =>
      if e2.point.index ≤ subevent.point.index then
        match events[st.link_index]? with
        | none => none
        | some eL =>
          match eL.link with
          | none => none
          | some lk =>
            match lk.next with
            | none => none
            | some nxt =>
              some { st with
                slices := st.slices ++ [(st.link_index, st.slice_start)],
                slice_start := subindex,
                link_index := nxt }
      else some st
  else some st

/-- One iteration of the partitioning loop body (`subtokenize.rs` lines
124-160): the boundary test, the `done` flag (lines 137-140), and the
deep-link shift (lines 146-158) where `shift = link_index - slices.len() * 2`
is `usize` arithmetic and the reciprocal back-link of the target subevent is
updated through the already-shifted vector (line 153 reads
`tokenizer.events[next]` after line 152 wrote the current subevent). -/
def partitionStep (events : List Event) (subindex : Nat) (st : PartState) :
    Option PartState :=
  match st.subevents[subindex]? with
  | none => none
  | some subevent =>
    match partitionBoundary events subindex st subevent with
    | none => none
    | some st1 =>
      let st2 := if subevent.link.isSome then { st1 with done := false } else st1
      match subevent.link with
      | none => some st2
      | some l =>
        match l.next with
        | none => some st2
        | some nxt =>
          match usizeSub st2.link_index (st2.slices.length * 2) with
          | none => none
          | some shift =>
            let subevents1 := st2.subevents.set subindex
              { subevent with link := some { l with next := some (nxt + shift) } }
            match subevents1[nxt]? with
            | none => none
            | some nextEv =>
              match nextEv.link with
              | none => none
              | some ln =>
                let newLink : Link :=
                  { ln with previous := ln.previous.map (fun p => p + shift) }
                let target : Event := { nextEv with link := some newLink }
                some { st2 with subevents := subevents1.set nxt target }

/-- The partitioning loop (`subtokenize.rs` line 124: `while subindex <
tokenizer.events.len()`), driven by fuel; the body never changes the length of
`subevents`, so fuel equal to that length is exact. -/
def partitionGo (events : List Event) : Nat → Nat → PartState → Option PartState
  | 0, _, st => some st
  | fuel + 1, subindex, st =>
    if subindex < st.subevents.length then
      match partitionStep events subindex st with
      | none => none
      | some st1 => partitionGo events fuel (subindex + 1) st1
    else some st

/-- The injection loop (`subtokenize.rs` lines 166-175), which walks `slices`
backwards and calls `map.add(slices[index].0, 2, events.split_off(slices[index].1))`;
the input here is the already-reversed slices list, and the scheduled
`EditMap.add` calls are returned in call order together with what is left of
the subevent vector. -/
def injectGo : List (Nat × Nat) → List Event → List (Nat × Nat × List Event) × List Event
  | [], subevents => ([], subevents)
  | (li, start) :: revRest, subevents =>
    let tail := subevents.drop start
    let kept := subevents.take start
    let rec1 := injectGo revRest kept
    ((li, 2, tail) :: rec1.1, rec1.2)

/-- Partitioning and injection for one chain (`subtokenize.rs` lines
119-175): run the loop from the chain's head, push the final slice (line
163), and schedule the patches; returns the `EditMap.add` calls in call order
and the pass's `done` flag. -/
def partitionChain (events : List Event) (headIndex : Nat) (subevents : List Event)
    (done : Bool) : Option (List (Nat × Nat × List Event) × Bool) :=
  match partitionGo events subevents.length 0
      { subevents := subevents, link_index := headIndex, slices := [],
        slice_start := 0, done := done } with
  | none => none
  | some st =>
    let slices := st.slices ++ [(st.link_index, st.slice_start)]
    some ((injectGo slices.reverse st.subevents).1, st.done)

/-- The `k`-th member of a chain, following `link.next` from `head`. -/
def chainSeq (events : List Event) (head : Nat) : Nat → Option Nat
  | 0 => some head
  | k + 1 =>
    match chainSeq events head k with
    | none => none
    | some i =>
      match events[i]? with
      | none => none
      | some e =>
        match e.link with
        | none => none
        | some l => l.next

/-- The slice of subevents assigned to each `(member, start)` pair: each
member receives the subevents from its recorded start up to the next recorded
start (the last member receives the remaining tail), packaged as the
`EditMap` patch `(member index, remove 2, inserts)`. -/
def segments : List (Nat × Nat) → List Event → List (Nat × Nat × List Event)
  | [], _ => []
  | [(li, s)], subevents => [(li, 2, subevents.drop s)]
  | (li, s) :: (li2, s2) :: rest, subevents =>
    (li, 2, (subevents.take s2).drop s) :: segments ((li2, s2) :: rest) subevents

/-- The recorded slice starts are weakly increasing, beginning at `lo` and
ending at most `hi`. -/
def startsChain : Nat → List (Nat × Nat) → Nat → Prop
  | lo, [], hi => lo ≤ hi
  | lo, (_, s) :: rest, hi => lo ≤ s ∧ startsChain s rest hi

/-- One record of the feeding loop (`subtokenize.rs` lines 90-115): the chain
member's index, whether `define_skip` was called for it (line 99), and the
`eof` flag passed to `push` for it (line 111). -/
structure FeedStep where
  member : Nat
  defineSkip : Bool
  eof : Bool
deriving DecidableEq, Repr

/-- The feeding loop (`subtokenize.rs` lines 89-115): walk the chain from
`start`; for each member, after the link `expect` (line 92), the `Enter`
assertion (line 93) and the span-end access (line 96), record that
`define_skip` is called iff `link.previous` is set (lines 99-101), and that
`push` receives `eof = (link.next == None)` (line 111); follow `link.next`
(line 114).  The sub-tokenizer's state is opaque and not tracked.  `fuel`
bounds the walk and exhaustion aborts. -/
def feedTrace (events : List Event) : Nat → Nat → Option (List FeedStep)
  | 0, _ => none
  | fuel + 1, idx =>
    match events[idx]? with
    | none => none
    | some enter =>
      match enter.link with
      | none => none
      | some lk =>
        if enter.event_type = EventType.enter then
          match events[idx + 1]? with
          | none => none
          | some _ =>
            let step : FeedStep :=
              { member := idx, defineSkip := lk.previous.isSome,
                eof := lk.next = none }
            match lk.next with
            | none => some [step]
            | some nxt =>
              match feedTrace events fuel nxt with
              | none => none
              | some steps => some (step :: steps)
        else none

/-- The boundary test never touches the subevent vector or the `done` flag. -/
theorem partitionBoundary_frame (events : List Event) (subindex : Nat)
    (st st1 : PartState) (subevent : Event)
    (h : partitionBoundary events subindex st subevent = some st1) :
    st1.subevents = st.subevents ∧ st1.done = st.done := by
  unfold partitionBoundary at h
  repeat' split at h
  all_goals try exact Option.noConfusion h
  all_goals
    have hh := Option.some.inj h
    subst hh
    exact ⟨rfl, rfl⟩

/-- C1: during the partitioning of subevents, when the current subevent
carries a `link.next`, the amount added to that `next` — and to the
reciprocal `link.previous` of the subevent it points at — is exactly
`m - 2·s`, where `m` (`link_index`, after any boundary advance in the same
iteration) is the current chain member's original index in the outer event
vector and `s` (`slices.len()`) is the number of chain members consumed so
far. -/
theorem partitionStep_shift (events : List Event) (subindex : Nat)
    (st st' : PartState) (ev : Event) (l : Link) (n : Nat)
    (hev : st.subevents[subindex]? = some ev)
    (hl : ev.link = some l) (hn : l.next = some n) (hne : n ≠ subindex)
    (h : partitionStep events subindex st = some st') :
    2 * st'.slices.length ≤ st'.link_index ∧
    st'.subevents[subindex]? = some { ev with link := some { l with
      next := some (n + (st'.link_index - 2 * st'.slices.length)) } } ∧
    (∃ evn ln, st.subevents[n]? = some evn ∧ evn.link = some ln ∧
      st'.subevents[n]? = some { evn with link := some { ln with
        previous := ln.previous.map
          (fun p => p + (st'.link_index - 2 * st'.slices.length)) } }) := by
  unfold partitionStep at h
  rw [hev] at h
  simp only [] at h
  split at h
  case h_1 => exact Option.noConfusion h
  case h_2 st1 hB =>
    obtain ⟨hsub1, _⟩ := partitionBoundary_frame _ _ _ _ _ hB
    rw [hl] at h
    simp only [Option.isSome_some, eq_self_iff_true, if_true] at h
    rw [hn] at h
    simp only [] at h
    split at h
    case h_1 => exact Option.noConfusion h
    case h_2 shift hshift =>
      rw [List.getElem?_set_ne (fun hh => hne hh.symm), hsub1] at h
      split at h
      case h_1 => exact Option.noConfusion h
      case h_2 nextEv hnext =>
        split at h
        case h_1 => exact Option.noConfusion h
        case h_2 ln hln =>
          have hh := Option.some.inj h
          subst hh
          unfold usizeSub at hshift
          split at hshift
          case isFalse => exact Option.noConfusion hshift
          case isTrue hle =>
            have hs := Option.some.inj hshift
            have hlen : subindex < st.subevents.length := lt_length_of_getElem?_some hev
            have hlenn : n < st.subevents.length := lt_length_of_getElem?_some hnext
            have hms : shift = st1.link_index - 2 * st1.slices.length := by omega
            refine ⟨by simp only []; omega, ?_, ⟨nextEv, ln, hnext, hln, ?_⟩⟩
            · simp only []
              rw [List.getElem?_set_ne (fun hh => hne hh),
                List.getElem?_set_eq_of_lt _ hlen, hms]
            · simp only []
              rw [List.getElem?_set_eq_of_lt _
                (by simp only [List.length_set]; exact hlenn), hms]

/-- A point with the given code index. -/
def ptI (i : Nat) : Point := { line := 1, column := 1, offset := i, index := i }

/-- Outer event vector for the C1 witness: a three-member `Text` chain of
void `chunkText` pairs. -/
def c1Events : List Event :=
  [ { event_type := EventType.enter, token_type := TokenType.chunkText,
      point := ptI 0,
      link := some { previous := none, next := some 2, content_type := ContentType.text } },
    { event_type := EventType.exit, token_type := TokenType.chunkText,
      point := ptI 3, link := none },
    { event_type := EventType.enter, token_type := TokenType.chunkText,
      point := ptI 4,
      link := some { previous := some 0, next := some 4, content_type := ContentType.text } },
    { event_type := EventType.exit, token_type := TokenType.chunkText,
      point := ptI 6, link := none },
    { event_type := EventType.enter, token_type := TokenType.chunkText,
      point := ptI 7,
      link := some { previous := some 2, next := none, content_type := ContentType.text } },
    { event_type := EventType.exit, token_type := TokenType.chunkText,
      point := ptI 100, link := none } ]

/-- Subevents for the C1 witness: index 2 carries a deep `String` link to
index 3. -/
def c1Subevents : List Event :=
  [ { event_type := EventType.enter, token_type := TokenType.data,
      point := ptI 0, link := none },
    { event_type := EventType.exit, token_type := TokenType.data,
      point := ptI 1, link := none },
    { event_type := EventType.enter, token_type := TokenType.chunkString,
      point := ptI 50,
      link := some { previous := none, next := some 3, content_type := ContentType.string } },
    { event_type := EventType.enter, token_type := TokenType.chunkString,
      point := ptI 51,
      link := some { previous := some 2, next := none, content_type := ContentType.string } },
    { event_type := EventType.exit, token_type := TokenType.data,
      point := ptI 52, link := none } ]

/-- Mid-loop state for the C1 witness: the current member is `m = 4`, one
member (`s = 1`) has been consumed, so `shift = 4 - 2·1 = 2`. -/
def c1StInit : PartState :=
  { subevents := c1Subevents, link_index := 4, slices := [(0, 0)],
    slice_start := 2, done := true }

/-- The state after the C1 witness step: the deep link `2 → 3` became
`2 → 5` and the reciprocal `previous` became `4`. -/
def c1Expected : PartState :=
  { subevents :=
      [ { event_type := EventType.enter, token_type := TokenType.data,
          point := ptI 0, link := none },
        { event_type := EventType.exit, token_type := TokenType.data,
          point := ptI 1, link := none },
        { event_type := EventType.enter, token_type := TokenType.chunkString,
          point := ptI 50,
          link := some { previous := none, next := some 5, content_type := ContentType.string } },
        { event_type := EventType.enter, token_type := TokenType.chunkString,
          point := ptI 51,
          link := some { previous := some 4, next := none, content_type := ContentType.string } },
        { event_type := EventType.exit, token_type := TokenType.data,
          point := ptI 52, link := none } ],
    link_index := 4, slices := [(0, 0)], slice_start := 2, done := false }

/-- Witness for C1, applying the theorem to the step at `subindex = 2` of
`c1StInit`. -/
theorem partitionStep_shift_witness :
    partitionStep c1Events 2 c1StInit = some c1Expected ∧
    2 * c1Expected.slices.length ≤ c1Expected.link_index ∧
    c1Expected.subevents[2]? = some
      { event_type := EventType.enter, token_type := TokenType.chunkString,
        point := ptI 50,
        link := some { previous := none,
                       next := some (3 + (c1Expected.link_index -
                         2 * c1Expected.slices.length)),
                       content_type := ContentType.string } } := by
  have hrun : partitionStep c1Events 2 c1StInit = some c1Expected := by decide
  obtain ⟨hle, hcur, _⟩ :=
    partitionStep_shift c1Events 2 c1StInit c1Expected
      { event_type := EventType.enter, token_type := TokenType.chunkString,
        point := ptI 50,
        link := some { previous := none, next := some 3, content_type := ContentType.string } }
      { previous := none, next := some 3, content_type := ContentType.string }
      3 (by decide) (by decide) (by decide) (by decide) hrun
  exact ⟨hrun, hle, hcur⟩

/-! ### One `EditMap` patch per chain member (C6) -/

theorem startsChain_snoc (lo : Nat) (l : List (Nat × Nat)) (s hi li : Nat)
    (h1 : startsChain lo l s) (h2 : s ≤ hi) :
    startsChain lo (l ++ [(li, s)]) hi := by
  induction l generalizing lo with
  | nil => exact ⟨h1, h2⟩
  | cons a l' ih =>
    obtain ⟨a1, a2⟩ := a
    obtain ⟨ha, hrest⟩ := h1
    exact ⟨ha, ih _ hrest⟩

theorem startsChain_snoc_inv (lo : Nat) (l : List (Nat × Nat)) (x : Nat × Nat) (hi : Nat)
    (h : startsChain lo (l ++ [x]) hi) :
    startsChain lo l x.2 ∧ x.2 ≤ hi := by
  induction l generalizing lo with
  | nil =>
    obtain ⟨x1, x2⟩ := x
    exact ⟨h.1, h.2⟩
  | cons a l' ih =>
    obtain ⟨a1, a2⟩ := a
    obtain ⟨ha, hrest⟩ := h
    obtain ⟨h1, h2⟩ := ih _ hrest
    exact ⟨⟨ha, h1⟩, h2⟩

theorem startsChain_lo_le (lo : Nat) (l : List (Nat × Nat)) (hi : Nat)
    (h : startsChain lo l hi) : lo ≤ hi := by
  induction l generalizing lo with
  | nil => exact h
  | cons a l' ih =>
    obtain ⟨a1, a2⟩ := a
    exact le_trans h.1 (ih _ h.2)

theorem startsChain_relax (lo : Nat) (l : List (Nat × Nat)) (hi hi' : Nat)
    (h : startsChain lo l hi) (hle : hi ≤ hi') : startsChain lo l hi' := by
  induction l generalizing lo with
  | nil => exact le_trans h hle
  | cons a l' ih =>
    obtain ⟨a1, a2⟩ := a
    exact ⟨h.1, ih _ h.2⟩

theorem startsChain_lo_weaken (lo lo' : Nat) (l : List (Nat × Nat)) (hi : Nat)
    (h : startsChain lo l hi) (hle : lo' ≤ lo) : startsChain lo' l hi := by
  cases l with
  | nil => exact le_trans hle h
  | cons a l' =>
    obtain ⟨a1, a2⟩ := a
    exact ⟨le_trans hle h.1, h.2⟩

theorem segments_length (slices : List (Nat × Nat)) (subs : List Event) :
    (segments slices subs).length = slices.length := by
  induction slices with
  | nil => rfl
  | cons a l ih =>
    obtain ⟨a1, a2⟩ := a
    cases l with
    | nil => rfl
    | cons b l' =>
      obtain ⟨b1, b2⟩ := b
      simp only [segments, List.length_cons]
      have := ih
      simp only [List.length_cons] at this
      omega

theorem segments_entry (slices : List (Nat × Nat)) (subs : List Event) :
    ∀ (k li s : Nat), slices[k]? = some (li, s) →
      ∃ ins : List Event, (segments slices subs)[k]? = some (li, 2, ins) := by
  induction slices with
  | nil => intro k li s h; simp at h
  | cons a l ih =>
    obtain ⟨a1, a2⟩ := a
    intro k li s h
    cases l with
    | nil =>
      cases k with
      | zero =>
        simp only [List.getElem?_cons_zero] at h
        have h' := Option.some.inj h
        injection h' with h1 h2
        subst h1
        subst h2
        exact ⟨subs.drop a2, by simp [segments]⟩
      | succ k' => simp at h
    | cons b l' =>
      obtain ⟨b1, b2⟩ := b
      cases k with
      | zero =>
        simp only [List.getElem?_cons_zero] at h
        have h' := Option.some.inj h
        injection h' with h1 h2
        subst h1
        subst h2
        exact ⟨(subs.take b2).drop a2, by simp [segments]⟩
      | succ k' =>
        simp only [List.getElem?_cons_succ] at h
        obtain ⟨ins, hins⟩ := ih k' li s h
        exact ⟨ins, by simp only [segments, List.getElem?_cons_succ]; exact hins⟩

theorem segments_snoc (l : List (Nat × Nat)) (x : Nat × Nat) (subs : List Event)
    (hi : Nat) (h : startsChain 0 (l ++ [x]) hi) :
    segments (l ++ [x]) subs =
      segments l (subs.take x.2) ++ [(x.1, 2, subs.drop x.2)] := by
  induction l generalizing subs with
  | nil =>
    obtain ⟨x1, x2⟩ := x
    simp [segments]
  | cons a l' ih =>
    obtain ⟨a1, a2⟩ := a
    obtain ⟨x1, x2⟩ := x
    cases l' with
    | nil =>
      simp only [List.nil_append, List.cons_append, segments]
    | cons b l'' =>
      obtain ⟨b1, b2⟩ := b
      obtain ⟨ha, hrest⟩ := h
      have hx2 : b2 ≤ x2 := by
        obtain ⟨hc, _⟩ := startsChain_snoc_inv _ _ _ _ hrest
        exact startsChain_lo_le _ _ _ hc.2
      have htt : (subs.take x2).take b2 = subs.take b2 := by
        rw [List.take_take]
        congr 1
        omega
      have h0 : startsChain 0 (((b1, b2) :: l'') ++ [(x1, x2)]) hi :=
        startsChain_lo_weaken _ _ _ _ hrest (Nat.zero_le _)
      have hih := ih subs h0
      simp only [List.cons_append] at hih
      simp only [List.cons_append, segments]
      rw [htt, ← hih]
      rfl

theorem injectGo_eq_segments (slices : List (Nat × Nat)) :
    ∀ (subs : List Event) (hi : Nat), startsChain 0 slices hi →
      (injectGo slices.reverse subs).1 = (segments slices subs).reverse := by
  induction slices using List.reverseRecOn with
  | nil => intro subs hi _; rfl
  | append_singleton l x ih =>
    intro subs hi h
    obtain ⟨x1, x2⟩ := x
    obtain ⟨h1, h2⟩ := startsChain_snoc_inv _ _ _ _ h
    rw [segments_snoc l (x1, x2) subs hi h]
    rw [List.reverse_append, List.reverse_append]
    simp only [List.reverse_cons, List.reverse_nil, List.nil_append, List.cons_append]
    rw [← ih (subs.take x2) x2 h1]
    simp [injectGo]

/-- The loop invariant of the partitioning loop: every recorded slice belongs
to the corresponding chain member, `link_index` is the next chain member, and
the recorded slice starts grow monotonically up to the current `slice_start`,
which never exceeds the current `subindex`. -/
def PartInv (events : List Event) (head : Nat) (subindex : Nat) (st : PartState) : Prop :=
  (∀ (k : Nat) (p : Nat × Nat), st.slices[k]? = some p →
    chainSeq events head k = some p.1) ∧
  chainSeq events head st.slices.length = some st.link_index ∧
  startsChain 0 st.slices st.slice_start ∧
  st.slice_start ≤ subindex

theorem partitionBoundary_inv (events : List Event) (head subindex : Nat)
    (st st1 : PartState) (subevent : Event)
    (hB : partitionBoundary events subindex st subevent = some st1)
    (hinv : PartInv events head subindex st) :
    PartInv events head (subindex + 1) st1 := by
  obtain ⟨hent, hchain, hstarts, hbound⟩ := hinv
  unfold partitionBoundary at hB
  split at hB
  case isFalse =>
    have hh := Option.some.inj hB
    subst hh
    exact ⟨hent, hchain, hstarts, by omega⟩
  case isTrue =>
    split at hB
    case h_1 => exact Option.noConfusion hB
    case h_2 e2 he2 =>
      split at hB
      case isFalse =>
        have hh := Option.some.inj hB
        subst hh
        exact ⟨hent, hchain, hstarts, by omega⟩
      case isTrue hpt =>
        split at hB
        case h_1 => exact Option.noConfusion hB
        case h_2 eL heL =>
          split at hB
          case h_1 => exact Option.noConfusion hB
          case h_2 lk hlk =>
            split at hB
            case h_1 => exact Option.noConfusion hB
            case h_2 nxt hnxt =>
              have hh := Option.some.inj hB
              subst hh
              refine ⟨?_, ?_, ?_, ?_⟩
              · intro k p hk
                simp only [] at hk
                by_cases hklt : k < st.slices.length
                · rw [List.getElem?_append, if_pos hklt] at hk
                  exact hent k p hk
                · have hlen := lt_length_of_getElem?_some hk
                  simp only [List.length_append, List.length_cons,
                    List.length_nil] at hlen
                  have hke : k = st.slices.length := by omega
                  subst hke
                  rw [List.getElem?_append_right (Nat.le_refl _), Nat.sub_self] at hk
                  simp only [List.getElem?_cons_zero] at hk
                  have hp := Option.some.inj hk
                  rw [← hp]
                  exact hchain
              · have hlenS : (st.slices ++ [(st.link_index, st.slice_start)]).length
                    = st.slices.length + 1 := by simp
                simp only []
                rw [hlenS]
                unfold chainSeq
                rw [hchain]
                simp only []
                rw [heL]
                simp only []
                rw [hlk]
                exact hnxt
              · exact startsChain_snoc _ _ _ _ _ hstarts hbound
              · simp only []
                omega

theorem partitionStep_inv (events : List Event) (head subindex : Nat)
    (st st' : PartState)
    (h : partitionStep events subindex st = some st')
    (hinv : PartInv events head subindex st) :
    PartInv events head (subindex + 1) st' ∧
    st'.subevents.length = st.subevents.length := by
  unfold partitionStep at h
  split at h
  case h_1 => exact Option.noConfusion h
  case h_2 subevent hev =>
    split at h
    case h_1 => exact Option.noConfusion h
    case h_2 st1 hB =>
      have hinv1 := partitionBoundary_inv events head subindex st st1 subevent hB hinv
      obtain ⟨hsub1, _⟩ := partitionBoundary_frame _ _ _ _ _ hB
      simp only [] at h
      split at h
      case h_1 hlk =>
        rw [hlk] at h
        simp only [Option.isSome_none, Bool.false_eq_true, if_false] at h
        have hh := Option.some.inj h
        subst hh
        exact ⟨hinv1, by rw [hsub1]⟩
      case h_2 l hlk =>
        rw [hlk] at h
        simp only [Option.isSome_some, eq_self_iff_true, if_true] at h
        split at h
        case h_1 =>
          have hh := Option.some.inj h
          subst hh
          exact ⟨hinv1, by simp only []; rw [hsub1]⟩
        case h_2 nxt hnxt =>
          split at h
          case h_1 => exact Option.noConfusion h
          case h_2 shift hshift =>
            split at h
            case h_1 => exact Option.noConfusion h
            case h_2 nextEv hnext =>
              split at h
              case h_1 => exact Option.noConfusion h
              case h_2 ln hln =>
                have hh := Option.some.inj h
                subst hh
                refine ⟨hinv1, ?_⟩
                simp only [List.length_set]
                rw [hsub1]

theorem partitionGo_inv (events : List Event) (head : Nat) :
    ∀ (fuel subindex : Nat) (st st' : PartState),
      partitionGo events fuel subindex st = some st' →
      PartInv events head subindex st →
      (∃ six, PartInv events head six st') ∧
      st'.subevents.length = st.subevents.length := by
  intro fuel
  induction fuel with
  | zero =>
    intro subindex st st' h hinv
    have hh := Option.some.inj h
    subst hh
    exact ⟨⟨subindex, hinv⟩, rfl⟩
  | succ fuel ih =>
    intro subindex st st' h hinv
    unfold partitionGo at h
    split at h
    case isTrue =>
      split at h
      case h_1 => exact Option.noConfusion h
      case h_2 st1 hstep =>
        obtain ⟨hinv1, hlen1⟩ := partitionStep_inv events head subindex st st1 hstep hinv
        obtain ⟨hex, hlen2⟩ := ih (subindex + 1) st1 st' h hinv1
        exact ⟨hex, hlen2.trans hlen1⟩
    case isFalse =>
      have hh := Option.some.inj h
      subst hh
      exact ⟨⟨subindex, hinv⟩, rfl⟩

/-- C6: for every chain processed by `subtokenize`, each chain member walked
by the partitioning loop gives rise to exactly one scheduled `EditMap` patch,
located at that member's index in the outer event vector, removing exactly 2
events and inserting the slice of subevents assigned to that member by the
recorded slice starts. -/
theorem subtokenize_one_patch_per_member (events : List Event) (headIndex : Nat)
    (subevents : List Event) (done : Bool)
    (res : List (Nat × Nat × List Event) × Bool)
    (h : partitionChain events headIndex subevents done = some res) :
    ∃ (slices : List (Nat × Nat)) (finalSubs : List Event),
      0 < slices.length ∧
      (∀ (k : Nat) (p : Nat × Nat), slices[k]? = some p →
        chainSeq events headIndex k = some p.1) ∧
      res.1.reverse = segments slices finalSubs ∧
      res.1.length = slices.length ∧
      (∀ (k li s : Nat), slices[k]? = some (li, s) →
        ∃ ins : List Event, (res.1.reverse)[k]? = some (li, 2, ins)) := by
  unfold partitionChain at h
  split at h
  case h_1 => exact Option.noConfusion h
  case h_2 st hGo =>
    simp only [] at h
    have hh := Option.some.inj h
    subst hh
    have hinv0 : PartInv events headIndex 0
        { subevents := subevents, link_index := headIndex, slices := [],
          slice_start := 0, done := done } := by
      refine ⟨?_, rfl, Nat.le_refl 0, Nat.le_refl 0⟩
      intro k p hk
      simp at hk
    obtain ⟨⟨six, hinvF⟩, _⟩ := partitionGo_inv events headIndex _ 0 _ st hGo hinv0
    obtain ⟨hent, hchain, hstarts, hbound⟩ := hinvF
    have hstartsS : startsChain 0
        (st.slices ++ [(st.link_index, st.slice_start)]) st.slice_start :=
      startsChain_snoc _ _ _ _ _ hstarts (Nat.le_refl _)
    refine ⟨st.slices ++ [(st.link_index, st.slice_start)], st.subevents,
      by simp, ?_, ?_, ?_, ?_⟩
    · intro k p hk
      by_cases hklt : k < st.slices.length
      · rw [List.getElem?_append, if_pos hklt] at hk
        exact hent k p hk
      · have hlen := lt_length_of_getElem?_some hk
        simp only [List.length_append, List.length_cons, List.length_nil] at hlen
        have hke : k = st.slices.length := by omega
        subst hke
        rw [List.getElem?_append_right (Nat.le_refl _), Nat.sub_self] at hk
        simp only [List.getElem?_cons_zero] at hk
        have hp := Option.some.inj hk
        rw [← hp]
        exact hchain
    · simp only []
      rw [injectGo_eq_segments _ st.subevents _ hstartsS, List.reverse_reverse]
    · simp only []
      rw [injectGo_eq_segments _ st.subevents _ hstartsS]
      simp [segments_length]
    · intro k li s hk
      simp only []
      rw [injectGo_eq_segments _ st.subevents _ hstartsS, List.reverse_reverse]
      exact segments_entry _ st.subevents k li s hk

/-- Outer event vector for the C6 witness: a two-member `Text` chain. -/
def c6Events : List Event :=
  [ { event_type := EventType.enter, token_type := TokenType.chunkText,
      point := ptI 0,
      link := some { previous := none, next := some 2, content_type := ContentType.text } },
    { event_type := EventType.exit, token_type := TokenType.chunkText,
      point := ptI 2, link := none },
    { event_type := EventType.enter, token_type := TokenType.chunkText,
      point := ptI 2,
      link := some { previous := some 0, next := none, content_type := ContentType.text } },
    { event_type := EventType.exit, token_type := TokenType.chunkText,
      point := ptI 4, link := none } ]

/-- Subevents for the C6 witness: two `data` pairs, the second starting at
the first member's end. -/
def c6Subevents : List Event :=
  [ { event_type := EventType.enter, token_type := TokenType.data,
      point := ptI 0, link := none },
    { event_type := EventType.exit, token_type := TokenType.data,
      point := ptI 2, link := none },
    { event_type := EventType.enter, token_type := TokenType.data,
      point := ptI 2, link := none },
    { event_type := EventType.exit, token_type := TokenType.data,
      point := ptI 4, link := none } ]

/-- The patches scheduled for the C6 witness, in `EditMap.add` call order:
member 2 receives the second `data` pair, member 0 the first; both remove 2
events. -/
def c6Res : List (Nat × Nat × List Event) × Bool :=
  ( [ (2, 2,
        [ { event_type := EventType.enter, token_type := TokenType.data,
            point := ptI 2, link := none },
          { event_type := EventType.exit, token_type := TokenType.data,
            point := ptI 4, link := none } ]),
      (0, 2,
        [ { event_type := EventType.enter, token_type := TokenType.data,
            point := ptI 0, link := none },
          { event_type := EventType.exit, token_type := TokenType.data,
            point := ptI 2, link := none } ]) ],
    true )

/-- Witness for C6, applying the theorem to the concrete two-member chain. -/
theorem subtokenize_one_patch_per_member_witness :
    partitionChain c6Events 0 c6Subevents true = some c6Res ∧
    0 < c6Res.1.length := by
  have hrun : partitionChain c6Events 0 c6Subevents true = some c6Res := by decide
  obtain ⟨slices, finalSubs, hpos, _, _, hlen, _⟩ :=
    subtokenize_one_patch_per_member c6Events 0 c6Subevents true c6Res hrun
  exact ⟨hrun, by rw [hlen]; exact hpos⟩

/-! ### `define_skip` and `eof` during the feeding loop (C7) -/

/-- Well-formed chain links, as `link_to` establishes them: every `next`
pointer has the reciprocal `previous` pointer on its target. -/
def chainWF (events : List Event) : Prop :=
  ∀ (i : Nat) (e : Event) (l : Link) (j : Nat),
    events[i]? = some e → e.link = some l → l.next = some j →
    ∃ e' l', events[j]? = some e' ∧ e'.link = some l' ∧ l'.previous = some i

theorem feedTrace_inversion (events : List Event) (fuel idx : Nat)
    (steps : List FeedStep)
    (h : feedTrace events (fuel + 1) idx = some steps) :
    ∃ enter lk, events[idx]? = some enter ∧ enter.link = some lk ∧
      enter.event_type = EventType.enter ∧
      ((lk.next = none ∧
        steps = [{ member := idx, defineSkip := lk.previous.isSome, eof := true }]) ∨
       (∃ nxt rest, lk.next = some nxt ∧ feedTrace events fuel nxt = some rest ∧
        steps = { member := idx, defineSkip := lk.previous.isSome,
                  eof := false } :: rest)) := by
  unfold feedTrace at h
  split at h
  case h_1 => exact Option.noConfusion h
  case h_2 enter heq =>
    split at h
    case h_1 => exact Option.noConfusion h
    case h_2 lk hlk =>
      split at h
      case isFalse => exact Option.noConfusion h
      case isTrue hET =>
        split at h
        case h_1 => exact Option.noConfusion h
        case h_2 e1 heq1 =>
          simp only [] at h
          split at h
          case h_1 hn =>
            rw [hn] at h
            have hh := (Option.some.inj h).symm
            exact ⟨enter, lk, heq, hlk, hET, Or.inl ⟨hn, by rw [hh]; rfl⟩⟩
          case h_2 nxt hn =>
            split at h
            case h_1 => exact Option.noConfusion h
            case h_2 rest hrest =>
              rw [hn] at h
              have hh := (Option.some.inj h).symm
              exact ⟨enter, lk, heq, hlk, hET,
                Or.inr ⟨nxt, rest, hn, hrest, by rw [hh]; rfl⟩⟩

theorem feedTrace_ne_nil (events : List Event) (fuel idx : Nat)
    (steps : List FeedStep) (h : feedTrace events fuel idx = some steps) :
    0 < steps.length := by
  cases fuel with
  | zero => exact Option.noConfusion h
  | succ fuel' =>
    obtain ⟨_, _, _, _, _, hcase⟩ := feedTrace_inversion events fuel' idx steps h
    rcases hcase with ⟨_, rfl⟩ | ⟨_, _, _, _, rfl⟩ <;> simp

theorem feedTrace_tail_defineSkip (events : List Event) (hwf : chainWF events) :
    ∀ (fuel idx : Nat) (steps : List FeedStep),
      feedTrace events fuel idx = some steps →
      ∀ (k : Nat) (step : FeedStep), steps[k]? = some step → 1 ≤ k →
        step.defineSkip = true := by
  intro fuel
  induction fuel with
  | zero =>
    intro idx steps h
    exact Option.noConfusion h
  | succ fuel ih =>
    intro idx steps h k step hk hk1
    obtain ⟨enter, lk, heq, hlk, _, hcase⟩ := feedTrace_inversion events fuel idx steps h
    rcases hcase with ⟨hn, rfl⟩ | ⟨nxt, rest, hn, hrest, rfl⟩
    · cases k with
      | zero => omega
      | succ k' => simp at hk
    · cases k with
      | zero => omega
      | succ k' =>
        simp only [List.getElem?_cons_succ] at hk
        by_cases hk0 : k' = 0
        · subst hk0
          cases fuel with
          | zero => exact Option.noConfusion hrest
          | succ fuel2 =>
            obtain ⟨e', lk', heq', hlk', _, hcase'⟩ :=
              feedTrace_inversion events fuel2 nxt rest hrest
            obtain ⟨e'', l'', heq'', hl'', hprev⟩ := hwf idx enter lk nxt heq hlk hn
            have he : e'' = e' := by
              rw [heq''] at heq'
              exact Option.some.inj heq'
            subst he
            have hll : l'' = lk' := by
              rw [hl''] at hlk'
              exact Option.some.inj hlk'
            subst hll
            rcases hcase' with ⟨_, rfl⟩ | ⟨_, _, _, _, rfl⟩ <;>
              · simp only [List.getElem?_cons_zero] at hk
                have hs := (Option.some.inj hk).symm
                rw [hs]
                simp [hprev]
        · exact ih nxt rest hrest k' step hk (by omega)

theorem feedTrace_eof (events : List Event) :
    ∀ (fuel idx : Nat) (steps : List FeedStep),
      feedTrace events fuel idx = some steps →
      ∀ (k : Nat) (step : FeedStep), steps[k]? = some step →
        (step.eof = true ↔ k = steps.length - 1) := by
  intro fuel
  induction fuel with
  | zero =>
    intro idx steps h
    exact Option.noConfusion h
  | succ fuel ih =>
    intro idx steps h k step hk
    obtain ⟨enter, lk, heq, hlk, _, hcase⟩ := feedTrace_inversion events fuel idx steps h
    rcases hcase with ⟨hn, rfl⟩ | ⟨nxt, rest, hn, hrest, rfl⟩
    · cases k with
      | zero =>
        simp only [List.getElem?_cons_zero] at hk
        have hs := (Option.some.inj hk).symm
        rw [hs]
        simp
      | succ k' => simp at hk
    · have hpos := feedTrace_ne_nil events fuel nxt rest hrest
      cases k with
      | zero =>
        simp only [List.getElem?_cons_zero] at hk
        have hs := (Option.some.inj hk).symm
        rw [hs]
        simp only [List.length_cons]
        constructor
        · intro hcontra
          exact absurd hcontra (by simp)
        · intro hcontra
          omega
      | succ k' =>
        simp only [List.getElem?_cons_succ] at hk
        have := ih nxt rest hrest k' step hk
        rw [this]
        simp only [List.length_cons]
        omega

/-- C7: while `subtokenize` feeds a chain to the sub-tokenizer,
`define_skip(enter.point)` is called for a chain member iff that member is
not the head of the chain (its `link.previous` is not `None`, equivalently
its position in the walk is not 0), and the `eof` flag passed to `push` is
true exactly on the member whose `link.next` is `None` (the last member of
the walk). -/
theorem subtokenize_feed_skip_eof (events : List Event) (fuel start : Nat)
    (steps : List FeedStep) (hwf : chainWF events)
    (enter0 : Event) (lk0 : Link)
    (h0 : events[start]? = some enter0) (hl0 : enter0.link = some lk0)
    (hhead : lk0.previous = none)
    (h : feedTrace events fuel start = some steps) :
    (∀ (k : Nat) (step : FeedStep), steps[k]? = some step →
      (step.defineSkip = true ↔ k ≠ 0)) ∧
    (∀ (k : Nat) (step : FeedStep), steps[k]? = some step →
      (step.eof = true ↔ k = steps.length - 1)) := by
  refine ⟨?_, fun k step hk => feedTrace_eof events fuel start steps h k step hk⟩
  intro k step hk
  cases k with
  | zero =>
    cases fuel with
    | zero => exact Option.noConfusion h
    | succ fuel' =>
      obtain ⟨enter, lk, heq, hlk, _, hcase⟩ :=
        feedTrace_inversion events fuel' start steps h
      have he : enter = enter0 := by
        rw [heq] at h0
        exact Option.some.inj h0
      subst he
      have hll : lk = lk0 := by
        rw [hlk] at hl0
        exact Option.some.inj hl0
      subst hll
      rcases hcase with ⟨_, rfl⟩ | ⟨_, _, _, _, rfl⟩ <;>
        · simp only [List.getElem?_cons_zero] at hk
          have hs := (Option.some.inj hk).symm
          rw [hs]
          simp [hhead]
  | succ k' =>
    have hds := feedTrace_tail_defineSkip events hwf fuel start steps h (k' + 1)
      step hk (by omega)
    simp [hds]

/-- `c6Events` is a well-formed chain. -/
theorem c6Events_chainWF : chainWF c6Events := by
  intro i e l j hi hl hn
  have hlt : i < c6Events.length := lt_length_of_getElem?_some hi
  have h4 : i < 4 := by simpa [c6Events] using hlt
  rcases i with _ | _ | _ | _ | i
  · simp only [c6Events, List.getElem?_cons_zero] at hi
    have he := Option.some.inj hi
    rw [← he] at hl
    simp only [] at hl
    have hll := Option.some.inj hl
    rw [← hll] at hn
    simp only [] at hn
    have hj := Option.some.inj hn
    subst hj
    exact ⟨_, _, rfl, rfl, rfl⟩
  · simp only [c6Events, List.getElem?_cons_succ, List.getElem?_cons_zero] at hi
    have he := Option.some.inj hi
    rw [← he] at hl
    exact Option.noConfusion hl
  · simp only [c6Events, List.getElem?_cons_succ, List.getElem?_cons_zero] at hi
    have he := Option.some.inj hi
    rw [← he] at hl
    simp only [] at hl
    have hll := Option.some.inj hl
    rw [← hll] at hn
    exact Option.noConfusion hn
  · simp only [c6Events, List.getElem?_cons_succ, List.getElem?_cons_zero] at hi
    have he := Option.some.inj hi
    rw [← he] at hl
    exact Option.noConfusion hl
  · omega

/-- The feed trace of the two-member chain in `c6Events`. -/
def c7Steps : List FeedStep :=
  [ { member := 0, defineSkip := false, eof := false },
    { member := 2, defineSkip := true, eof := true } ]

/-- Witness for C7, applying the theorem to the two-member chain of
`c6Events`: the second member gets `define_skip` and the `eof` flag. -/
theorem subtokenize_feed_skip_eof_witness :
    feedTrace c6Events 4 0 = some c7Steps ∧
    ({ member := 2, defineSkip := true, eof := true } : FeedStep).defineSkip = true ∧
    ({ member := 2, defineSkip := true, eof := true } : FeedStep).eof = true := by
  have hrun : feedTrace c6Events 4 0 = some c7Steps := by decide
  obtain ⟨hds, heof⟩ := subtokenize_feed_skip_eof c6Events 4 0 c7Steps c6Events_chainWF
    { event_type := EventType.enter, token_type := TokenType.chunkText, point := ptI 0,
      link := some { previous := none, next := some 2, content_type := ContentType.text } }
    { previous := none, next := some 2, content_type := ContentType.text }
    rfl rfl rfl hrun
  refine ⟨hrun, ?_, ?_⟩
  · exact (hds 1 ⟨2, true, true⟩ rfl).mpr (by decide)
  · exact (heof 1 ⟨2, true, true⟩ rfl).mpr (by decide)

/-! ### The full `subtokenize` pass and its fixed point (C2)

The outer loop of `subtokenize` (`src/subtokenize.rs` lines 61-185) walks the
event vector, processes every chain head, and finally applies the `EditMap`.
The sub-tokenizer runs (`Tokenizer::push` composed over the chain's spans,
lines 89-115) are opaque: an `oracle` maps the chain's content type and head
index to the subevent vector the sub-tokenizer would produce. -/

/-- An `EditMap.add` call: `(index, remove, inserts)`. -/
abbrev Patch := Nat × Nat × List Event

/-- Ordering of patches by index, used by `EditMap.consume` (spec §4.4). -/
def patchLE (p q : Patch) : Prop := p.1 ≤ q.1

instance : DecidableRel patchLE := fun p q => Nat.decLe p.1 q.1

instance : IsTrans Patch patchLE := ⟨fun _ _ _ h1 h2 => Nat.le_trans h1 h2⟩

instance : IsTotal Patch patchLE := ⟨fun p q => Nat.le_total p.1 q.1⟩

/-- Modelled from the spec (§4.4, absent `util/edit_map.rs`): the linear
rewrite of `EditMap.consume` over patches already sorted by ascending index:
copy the untouched events before the patch, skip `remove` events, emit the
inserts, continue after the removed window.  `pos` is the absolute index of
the first event of `evs`. -/
def editConsumeGo : List Patch → Nat → List Event → List Event
  | [], _, evs => evs
  | (idx, rem, ins) :: ps, pos, evs =>
    evs.take (idx - pos) ++ ins ++ editConsumeGo ps (idx + rem) (evs.drop (idx - pos + rem))

/-- Modelled from the spec (§4.4, absent `util/edit_map.rs`):
`EditMap.consume` sorts the scheduled patches by ascending index and applies
them in one pass. -/
def editMapConsume (patches : List Patch) (events : List Event) : List Event :=
  editConsumeGo (List.insertionSort patchLE patches) 0 events

/-- The outer walk of `subtokenize` (`subtokenize.rs` lines 66-180): for each
event carrying a link (asserted to be an `Enter`, line 71) whose
`link.previous` is `None` (line 74), feed the chain to a fresh sub-tokenizer
— abstracted by `oracle link.content_type index` — and partition the result,
accumulating the scheduled patches and the `done` flag. -/
def collectGo (oracle : ContentType → Nat → List Event) (events : List Event) :
    Nat → Nat → List Patch → Bool → Option (List Patch × Bool)
  | 0, _, acc, done => some (acc, done)
  | fuel + 1, index, acc, done =>
    if index < events.length then
      match events[index]? with
      | none => none
      | some event =>
        match event.link with
        | none => collectGo oracle events fuel (index + 1) acc done
        | some link =>
          if event.event_type = EventType.enter then
            if link.previous = none then
              match partitionChain events index (oracle link.content_type index) done with
              | none => none
              | some (patches, done1) =>
                collectGo oracle events fuel (index + 1) (acc ++ patches) done1
            else collectGo oracle events fuel (index + 1) acc done
          else none
    else some (acc, done)

/-- The patch-collection phase of one `subtokenize` pass. -/
def passPatches (oracle : ContentType → Nat → List Event) (events : List Event) :
    Option (List Patch × Bool) :=
  collectGo oracle events events.length 0 [] true

/-- One full `subtokenize` pass (`subtokenize.rs` lines 61-185): collect the
patches over all chains, apply the `EditMap`, return the rewritten events and
the `done` flag. -/
def subtokenizeModel (oracle : ContentType → Nat → List Event) (events : List Event) :
    Option (List Event × Bool) :=
  match passPatches oracle events with
  | none => none
  | some (patches, done) => some (editMapConsume patches events, done)

/-- No event of the list carries a link (spec §7: `String` content produces
no further content links — `String ⊂ Text` and `String` does not nest). -/
def linkFree (l : List Event) : Prop := ∀ e ∈ l, e.link = none

/-- Every link carried by an event of the list has `String` content type
(spec §7: `Text` does not re-enter `Text`; deeper content inside `Text` is
`String`). -/
def stringLinked (l : List Event) : Prop :=
  ∀ e ∈ l, ∀ lk, e.link = some lk → lk.content_type = ContentType.string

/-- Some event of the list carries a link. -/
def hasLinked (l : List Event) : Prop := ∃ e ∈ l, e.link.isSome = true

theorem mem_take_idx {α : Type} {l : List α} {n : Nat} {x : α} (h : x ∈ l.take n) :
    ∃ j, j < n ∧ l[j]? = some x := by
  induction l generalizing n with
  | nil => simp [List.take] at h
  | cons a t ih =>
    cases n with
    | zero => simp [List.take] at h
    | succ m =>
      rw [List.take_succ_cons] at h
      rcases List.mem_cons.mp h with h1 | h2
      · exact ⟨0, Nat.succ_pos m, by simp [h1]⟩
      · obtain ⟨j, hj, hg⟩ := ih h2
        exact ⟨j + 1, Nat.succ_lt_succ hj, by simpa using hg⟩

theorem mem_drop_idx {α : Type} {l : List α} {n : Nat} {x : α} (h : x ∈ l.drop n) :
    ∃ j : Nat, l[n + j]? = some x := by
  obtain ⟨i, hi, rfl⟩ := List.getElem_of_mem h
  refine ⟨i, ?_⟩
  have hd : (l.drop n)[i]? = l[n + i]? := List.getElem?_drop l n i
  rw [← hd]
  exact List.getElem?_eq_getElem hi

theorem mem_idx {α : Type} {l : List α} {x : α} (h : x ∈ l) : ∃ j : Nat, l[j]? = some x := by
  obtain ⟨i, hi, rfl⟩ := List.getElem_of_mem h
  exact ⟨i, List.getElem?_eq_getElem hi⟩

/-- One partitioning iteration preserves `String`-typedness of every link in
the subevent vector: the two `List.set` writes only renumber `next` and
`previous`, never `content_type`. -/
theorem partitionStep_stringLinked (events : List Event) (subindex : Nat)
    (st st' : PartState) (hsl : stringLinked st.subevents)
    (h : partitionStep events subindex st = some st') :
    stringLinked st'.subevents := by
  unfold partitionStep at h
  split at h
  case h_1 => exact Option.noConfusion h
  case h_2 subevent hsub =>
  split at h
  case h_1 => exact Option.noConfusion h
  case h_2 st1 hB =>
  obtain ⟨hbs, hbd⟩ := partitionBoundary_frame _ _ _ _ _ hB
  have hmemsub : subevent ∈ st.subevents := List.getElem?_mem hsub
  cases hlk : subevent.link with
  | none =>
    rw [hlk] at h
    simp only [Option.isSome_none, Bool.false_eq_true, if_false] at h
    have hh := Option.some.inj h
    subst hh
    rw [hbs]
    exact hsl
  | some l =>
    have hct : l.content_type = ContentType.string := hsl subevent hmemsub l hlk
    rw [hlk] at h
    simp only [Option.isSome_some, if_true] at h
    cases hnxt : l.next with
    | none =>
      rw [hnxt] at h
      simp only [] at h
      have hh := Option.some.inj h
      subst hh
      simp only []
      rw [hbs]
      exact hsl
    | some nxt =>
      rw [hnxt] at h
      simp only [] at h
      split at h
      case h_1 => exact Option.noConfusion h
      case h_2 shift hshift =>
      split at h
      case h_1 => exact Option.noConfusion h
      case h_2 nextEv hnext =>
      split at h
      case h_1 => exact Option.noConfusion h
      case h_2 ln hln =>
      have hh := Option.some.inj h
      subst hh
      simp only []
      have hctn : ln.content_type = ContentType.string := by
        rcases List.mem_or_eq_of_mem_set (List.getElem?_mem hnext) with h2 | h2
        · rw [hbs] at h2
          exact hsl nextEv h2 ln hln
        · rw [h2] at hln
          simp only [] at hln
          have := Option.some.inj hln
          rw [← this]
          exact hct
      intro e he lk hlkk
      rcases List.mem_or_eq_of_mem_set he with he1 | he1
      · rcases List.mem_or_eq_of_mem_set he1 with he2 | he2
        · rw [hbs] at he2
          exact hsl e he2 lk hlkk
        · subst he2
          simp only [] at hlkk
          have hlk2 := Option.some.inj hlkk
          subst hlk2
          exact hct
      · subst he1
        simp only [] at hlkk
        have hlk2 := Option.some.inj hlkk
        subst hlk2
        exact hctn

/-- The partitioning loop preserves `String`-typedness of subevent links. -/
theorem partitionGo_stringLinked (events : List Event) :
    ∀ (fuel subindex : Nat) (st st' : PartState), stringLinked st.subevents →
      partitionGo events fuel subindex st = some st' → stringLinked st'.subevents := by
  intro fuel
  induction fuel with
  | zero =>
    intro subindex st st' hsl h
    have hh := Option.some.inj h
    subst hh
    exact hsl
  | succ fuel ih =>
    intro subindex st st' hsl h
    unfold partitionGo at h
    split at h
    case isTrue =>
      split at h
      case h_1 => exact Option.noConfusion h
      case h_2 st1 hstep =>
        exact ih (subindex + 1) st1 st'
          (partitionStep_stringLinked events subindex st st1 hsl hstep) h
    case isFalse =>
      have hh := Option.some.inj h
      subst hh
      exact hsl

/-- On a link-free subevent vector, one partitioning iteration changes
neither the subevent vector nor the `done` flag. -/
theorem partitionStep_linkFree (events : List Event) (subindex : Nat)
    (st st' : PartState) (hlf : linkFree st.subevents)
    (h : partitionStep events subindex st = some st') :
    st'.subevents = st.subevents ∧ st'.done = st.done := by
  unfold partitionStep at h
  split at h
  case h_1 => exact Option.noConfusion h
  case h_2 subevent hsub =>
  split at h
  case h_1 => exact Option.noConfusion h
  case h_2 st1 hB =>
  obtain ⟨hbs, hbd⟩ := partitionBoundary_frame _ _ _ _ _ hB
  have hnone : subevent.link = none := hlf subevent (List.getElem?_mem hsub)
  rw [hnone] at h
  simp only [Option.isSome_none, Bool.false_eq_true, if_false] at h
  have hh := Option.some.inj h
  subst hh
  exact ⟨hbs, hbd⟩

/-- One partitioning iteration sets `done := false` only if the current
subevent carries a link; otherwise the flag is passed through. -/
theorem partitionStep_done_back (events : List Event) (subindex : Nat)
    (st st' : PartState) (h : partitionStep events subindex st = some st')
    (hd : st'.done = false) : st.done = false ∨ hasLinked st.subevents := by
  unfold partitionStep at h
  split at h
  case h_1 => exact Option.noConfusion h
  case h_2 subevent hsub =>
  split at h
  case h_1 => exact Option.noConfusion h
  case h_2 st1 hB =>
  obtain ⟨hbs, hbd⟩ := partitionBoundary_frame _ _ _ _ _ hB
  cases hlk : subevent.link with
  | none =>
    rw [hlk] at h
    simp only [Option.isSome_none, Bool.false_eq_true, if_false] at h
    have hh := Option.some.inj h
    subst hh
    exact Or.inl (hbd ▸ hd)
  | some l =>
    exact Or.inr ⟨subevent, List.getElem?_mem hsub, by rw [hlk]; rfl⟩

/-- Shifting deep links never creates a link where there was none: if the
output vector has a linked event, so did the input. -/
theorem partitionStep_hasLinked_back (events : List Event) (subindex : Nat)
    (st st' : PartState) (h : partitionStep events subindex st = some st')
    (hl : hasLinked st'.subevents) : hasLinked st.subevents := by
  unfold partitionStep at h
  split at h
  case h_1 => exact Option.noConfusion h
  case h_2 subevent hsub =>
  split at h
  case h_1 => exact Option.noConfusion h
  case h_2 st1 hB =>
  obtain ⟨hbs, hbd⟩ := partitionBoundary_frame _ _ _ _ _ hB
  have hmemsub : subevent ∈ st.subevents := List.getElem?_mem hsub
  cases hlk : subevent.link with
  | none =>
    rw [hlk] at h
    simp only [Option.isSome_none, Bool.false_eq_true, if_false] at h
    have hh := Option.some.inj h
    subst hh
    rw [hbs] at hl
    exact hl
  | some l =>
    exact ⟨subevent, hmemsub, by rw [hlk]; rfl⟩

/-- On a link-free subevent vector, the whole partitioning loop changes
neither the subevent vector nor the `done` flag. -/
theorem partitionGo_linkFree (events : List Event) :
    ∀ (fuel subindex : Nat) (st st' : PartState), linkFree st.subevents →
      partitionGo events fuel subindex st = some st' →
      st'.subevents = st.subevents ∧ st'.done = st.done := by
  intro fuel
  induction fuel with
  | zero =>
    intro subindex st st' _ h
    have hh := Option.some.inj h
    subst hh
    exact ⟨rfl, rfl⟩
  | succ fuel ih =>
    intro subindex st st' hlf h
    unfold partitionGo at h
    split at h
    case isTrue =>
      split at h
      case h_1 => exact Option.noConfusion h
      case h_2 st1 hstep =>
        obtain ⟨hs1, hd1⟩ := partitionStep_linkFree events subindex st st1 hlf hstep
        obtain ⟨hs2, hd2⟩ := ih (subindex + 1) st1 st' (hs1 ▸ hlf) h
        exact ⟨hs2.trans hs1, hd2.trans hd1⟩
    case isFalse =>
      have hh := Option.some.inj h
      subst hh
      exact ⟨rfl, rfl⟩

/-- The partitioning loop ends with `done = false` only if it started so or
some subevent carries a link. -/
theorem partitionGo_done_back (events : List Event) :
    ∀ (fuel subindex : Nat) (st st' : PartState),
      partitionGo events fuel subindex st = some st' → st'.done = false →
      st.done = false ∨ hasLinked st.subevents := by
  intro fuel
  induction fuel with
  | zero =>
    intro subindex st st' h hd
    have hh := Option.some.inj h
    subst hh
    exact Or.inl hd
  | succ fuel ih =>
    intro subindex st st' h hd
    unfold partitionGo at h
    split at h
    case isTrue =>
      split at h
      case h_1 => exact Option.noConfusion h
      case h_2 st1 hstep =>
        rcases ih (subindex + 1) st1 st' h hd with h1 | h1
        · exact partitionStep_done_back events subindex st st1 hstep h1
        · exact Or.inr (partitionStep_hasLinked_back events subindex st st1 hstep h1)
    case isFalse =>
      have hh := Option.some.inj h
      subst hh
      exact Or.inl hd

/-- Every `EditMap.add` call scheduled by the injection loop removes exactly
2 events. -/
theorem injectGo_rem2 :
    ∀ (revSlices : List (Nat × Nat)) (subs : List Event) (p : Nat × Nat × List Event),
      p ∈ (injectGo revSlices subs).1 → p.2.1 = 2 := by
  intro revSlices
  induction revSlices with
  | nil =>
    intro subs p hp
    simp [injectGo] at hp
  | cons x rest ih =>
    intro subs p hp
    unfold injectGo at hp
    rcases List.mem_cons.mp hp with h1 | h1
    · rw [h1]
    · exact ih (subs.take x.2) p h1

/-- Every event inserted by a scheduled `EditMap.add` call comes from the
subevent vector being split. -/
theorem injectGo_inserts_mem :
    ∀ (revSlices : List (Nat × Nat)) (subs : List Event) (p : Nat × Nat × List Event),
      p ∈ (injectGo revSlices subs).1 → ∀ e ∈ p.2.2, e ∈ subs := by
  intro revSlices
  induction revSlices with
  | nil =>
    intro subs p hp
    simp [injectGo] at hp
  | cons x rest ih =>
    intro subs p hp e he
    unfold injectGo at hp
    rcases List.mem_cons.mp hp with h1 | h1
    · rw [h1] at he
      exact List.mem_of_mem_drop he
    · exact List.mem_of_mem_take (ih (subs.take x.2) p h1 e he)

/-- One chain's processing: every scheduled patch removes 2 events and, when
the sub-tokenizer output is `String`-typed, inserts only `String`-typed
events; `done` end-state facts follow the loop. -/
theorem partitionChain_rem2 (events : List Event) (headIndex : Nat)
    (subevents : List Event) (done : Bool) (res : List Patch × Bool)
    (h : partitionChain events headIndex subevents done = some res) :
    ∀ p ∈ res.1, p.2.1 = 2 := by
  unfold partitionChain at h
  split at h
  case h_1 => exact Option.noConfusion h
  case h_2 st hgo =>
    have hh := Option.some.inj h
    subst hh
    intro p hp
    exact injectGo_rem2 _ _ p hp

/-- If the sub-tokenizer output carries only `String`-typed links, so does
every insert scheduled for the chain. -/
theorem partitionChain_stringLinked (events : List Event) (headIndex : Nat)
    (subevents : List Event) (done : Bool) (res : List Patch × Bool)
    (hsl : stringLinked subevents)
    (h : partitionChain events headIndex subevents done = some res) :
    ∀ p ∈ res.1, stringLinked p.2.2 := by
  unfold partitionChain at h
  split at h
  case h_1 => exact Option.noConfusion h
  case h_2 st hgo =>
    have hh := Option.some.inj h
    subst hh
    intro p hp e he lk hlk
    have hsl' : stringLinked st.subevents :=
      partitionGo_stringLinked events subevents.length 0 _ st (by exact hsl) hgo
    exact hsl' e (injectGo_inserts_mem _ _ p hp e he) lk hlk

/-- If the sub-tokenizer output is link-free, the chain's processing passes
the `done` flag through unchanged. -/
theorem partitionChain_linkFree_done (events : List Event) (headIndex : Nat)
    (subevents : List Event) (done : Bool) (res : List Patch × Bool)
    (hlf : linkFree subevents)
    (h : partitionChain events headIndex subevents done = some res) :
    res.2 = done := by
  unfold partitionChain at h
  split at h
  case h_1 => exact Option.noConfusion h
  case h_2 st hgo =>
    have hh := Option.some.inj h
    subst hh
    exact (partitionGo_linkFree events subevents.length 0 _ st (by exact hlf) hgo).2

/-- The chain's processing returns `done = false` only if the flag came in
`false` or some produced subevent carries a link. -/
theorem partitionChain_done_back (events : List Event) (headIndex : Nat)
    (subevents : List Event) (done : Bool) (res : List Patch × Bool)
    (h : partitionChain events headIndex subevents done = some res)
    (hd : res.2 = false) : done = false ∨ hasLinked subevents := by
  unfold partitionChain at h
  split at h
  case h_1 => exact Option.noConfusion h
  case h_2 st hgo =>
    have hh := Option.some.inj h
    subst hh
    exact partitionGo_done_back events subevents.length 0 _ st hgo hd

/-- Over the whole walk, every scheduled patch removes exactly 2 events. -/
theorem collectGo_rem2 (oracle : ContentType → Nat → List Event) (events : List Event) :
    ∀ (fuel index : Nat) (acc : List Patch) (done : Bool) (out : List Patch × Bool),
      (∀ p ∈ acc, p.2.1 = 2) →
      collectGo oracle events fuel index acc done = some out →
      ∀ p ∈ out.1, p.2.1 = 2 := by
  intro fuel
  induction fuel with
  | zero =>
    intro index acc done out hacc h
    have hh := Option.some.inj h
    subst hh
    exact hacc
  | succ fuel ih =>
    intro index acc done out hacc h
    unfold collectGo at h
    split at h
    case isTrue =>
      split at h
      case h_1 => exact Option.noConfusion h
      case h_2 event hev =>
        split at h
        case h_1 => exact ih _ _ _ _ hacc h
        case h_2 link hlink =>
          split at h
          case isTrue =>
            split at h
            case isTrue =>
              split at h
              case h_1 => exact Option.noConfusion h
              case h_2 patches done1 hpc =>
                refine ih _ _ _ _ ?_ h
                intro p hp
                rcases List.mem_append.mp hp with h1 | h1
                · exact hacc p h1
                · exact partitionChain_rem2 events index _ done (patches, done1) hpc p h1
            case isFalse => exact ih _ _ _ _ hacc h
          case isFalse => exact Option.noConfusion h
    case isFalse =>
      have hh := Option.some.inj h
      subst hh
      exact hacc

/-- When every sub-tokenizer output carries only `String`-typed links, so
does every insert of every scheduled patch. -/
theorem collectGo_stringLinked (oracle : ContentType → Nat → List Event)
    (events : List Event) (horacle : ∀ ct i, stringLinked (oracle ct i)) :
    ∀ (fuel index : Nat) (acc : List Patch) (done : Bool) (out : List Patch × Bool),
      (∀ p ∈ acc, stringLinked p.2.2) →
      collectGo oracle events fuel index acc done = some out →
      ∀ p ∈ out.1, stringLinked p.2.2 := by
  intro fuel
  induction fuel with
  | zero =>
    intro index acc done out hacc h
    have hh := Option.some.inj h
    subst hh
    exact hacc
  | succ fuel ih =>
    intro index acc done out hacc h
    unfold collectGo at h
    split at h
    case isTrue =>
      split at h
      case h_1 => exact Option.noConfusion h
      case h_2 event hev =>
        split at h
        case h_1 => exact ih _ _ _ _ hacc h
        case h_2 link hlink =>
          split at h
          case isTrue =>
            split at h
            case isTrue =>
              split at h
              case h_1 => exact Option.noConfusion h
              case h_2 patches done1 hpc =>
                refine ih _ _ _ _ ?_ h
                intro p hp
                rcases List.mem_append.mp hp with h1 | h1
                · exact hacc p h1
                · exact partitionChain_stringLinked events index _ done (patches, done1)
                    (horacle link.content_type index) hpc p h1
            case isFalse => exact ih _ _ _ _ hacc h
          case isFalse => exact Option.noConfusion h
    case isFalse =>
      have hh := Option.some.inj h
      subst hh
      exact hacc

/-- When the sub-tokenizer output of every chain head reachable in the walk
is link-free, the walk passes the `done` flag through unchanged. -/
theorem collectGo_done_pass (oracle : ContentType → Nat → List Event)
    (events : List Event)
    (hheads : ∀ i e l, events[i]? = some e → e.link = some l → l.previous = none →
      linkFree (oracle l.content_type i)) :
    ∀ (fuel index : Nat) (acc : List Patch) (done : Bool) (out : List Patch × Bool),
      collectGo oracle events fuel index acc done = some out →
      out.2 = done := by
  intro fuel
  induction fuel with
  | zero =>
    intro index acc done out h
    have hh := Option.some.inj h
    subst hh
    rfl
  | succ fuel ih =>
    intro index acc done out h
    unfold collectGo at h
    split at h
    case isTrue =>
      split at h
      case h_1 => exact Option.noConfusion h
      case h_2 event hev =>
        split at h
        case h_1 => exact ih _ _ _ _ h
        case h_2 link hlink =>
          split at h
          case isTrue =>
            split at h
            case isTrue hprev =>
              split at h
              case h_1 => exact Option.noConfusion h
              case h_2 patches done1 hpc =>
                have hlf : linkFree (oracle link.content_type index) :=
                  hheads index event link hev hlink hprev
                have hd1 : done1 = done :=
                  partitionChain_linkFree_done events index _ done (patches, done1) hlf hpc
                rw [ih _ _ _ _ h]
                exact hd1
            case isFalse => exact ih _ _ _ _ h
          case isFalse => exact Option.noConfusion h
    case isFalse =>
      have hh := Option.some.inj h
      subst hh
      rfl

/-- The walk returns `done = false` only if the flag came in `false` or some
chain head's sub-tokenizer output still carries a link. -/
theorem collectGo_done_false_back (oracle : ContentType → Nat → List Event)
    (events : List Event) :
    ∀ (fuel index : Nat) (acc : List Patch) (done : Bool) (out : List Patch × Bool),
      collectGo oracle events fuel index acc done = some out → out.2 = false →
      done = false ∨ ∃ i e l, events[i]? = some e ∧ e.link = some l ∧
        l.previous = none ∧ hasLinked (oracle l.content_type i) := by
  intro fuel
  induction fuel with
  | zero =>
    intro index acc done out h hd
    have hh := Option.some.inj h
    subst hh
    exact Or.inl hd
  | succ fuel ih =>
    intro index acc done out h hd
    unfold collectGo at h
    split at h
    case isTrue =>
      split at h
      case h_1 => exact Option.noConfusion h
      case h_2 event hev =>
        split at h
        case h_1 => exact ih _ _ _ _ h hd
        case h_2 link hlink =>
          split at h
          case isTrue =>
            split at h
            case isTrue hprev =>
              split at h
              case h_1 => exact Option.noConfusion h
              case h_2 patches done1 hpc =>
                rcases ih _ _ _ _ h hd with h1 | h1
                · rcases partitionChain_done_back events index _ done (patches, done1)
                    hpc h1 with h2 | h2
                  · exact Or.inl h2
                  · exact Or.inr ⟨index, event, link, hev, hlink, hprev, h2⟩
                · exact Or.inr h1
            case isFalse => exact ih _ _ _ _ h hd
          case isFalse => exact Option.noConfusion h
    case isFalse =>
      have hh := Option.some.inj h
      subst hh
      exact Or.inl hd

/-- Two patches touch disjoint windows of the original event vector. -/
def windowsDisjoint (p q : Patch) : Prop := p.1 + p.2.1 ≤ q.1 ∨ q.1 + q.2.1 ≤ p.1

/-- Ascending, window-separated patch lists: each patch's window ends before
the next one starts. -/
def patchesSeparated (ps : List Patch) : Prop :=
  List.Pairwise (fun p q : Patch => p.1 + p.2.1 ≤ q.1) ps

/-- Characterization of `EditMap.consume` survivors: every event of the
rewritten vector is either an insert of one of the (sorted, separated)
patches, or an original event whose absolute index lies in no patch's removal
window. -/
theorem editConsumeGo_mem :
    ∀ (ps : List Patch) (pos : Nat) (evs : List Event) (x : Event),
      patchesSeparated ps →
      (∀ p ∈ ps, pos ≤ p.1) →
      x ∈ editConsumeGo ps pos evs →
      (∃ p ∈ ps, x ∈ p.2.2) ∨
      ∃ j : Nat, evs[j]? = some x ∧
        ∀ p ∈ ps, ¬(p.1 ≤ j + pos ∧ j + pos < p.1 + p.2.1) := by
  intro ps
  induction ps with
  | nil =>
    intro pos evs x _ _ hx
    simp only [editConsumeGo] at hx
    obtain ⟨j, hj⟩ := mem_idx hx
    right
    refine ⟨j, hj, ?_⟩
    intro p hp
    exact absurd hp (List.not_mem_nil p)
  | cons hd ps ih =>
    intro pos evs x hpw hpos hx
    obtain ⟨idx, rem, ins⟩ := hd
    have hple : pos ≤ idx := hpos _ (List.mem_cons_self _ _)
    have hpw' := (List.pairwise_cons.mp hpw).2
    have hnext : ∀ q ∈ ps, idx + rem ≤ q.1 := (List.pairwise_cons.mp hpw).1
    simp only [editConsumeGo] at hx
    rcases List.mem_append.mp hx with hx1 | hxr
    · rcases List.mem_append.mp hx1 with hxt | hxi
      · obtain ⟨j, hjlt, hj⟩ := mem_take_idx hxt
        right
        refine ⟨j, hj, ?_⟩
        intro q hq
        rcases List.mem_cons.mp hq with hq1 | hq2
        · subst hq1
          rintro ⟨h1, h2⟩
          simp only [] at h1 h2
          omega
        · have hq1 := hnext q hq2
          rintro ⟨h1, h2⟩
          omega
      · exact Or.inl ⟨(idx, rem, ins), List.mem_cons_self _ _, hxi⟩
    · rcases ih (idx + rem) (evs.drop (idx - pos + rem)) x hpw' hnext hxr with h1 | h1
      · obtain ⟨q, hq, hxq⟩ := h1
        exact Or.inl ⟨q, List.mem_cons_of_mem _ hq, hxq⟩
      · obtain ⟨j, hj, huncov⟩ := h1
        right
        have hdrop : (evs.drop (idx - pos + rem))[j]? = evs[(idx - pos + rem) + j]? :=
          List.getElem?_drop evs (idx - pos + rem) j
        refine ⟨(idx - pos + rem) + j, by rw [← hdrop]; exact hj, ?_⟩
        intro q hq
        rcases List.mem_cons.mp hq with hq1 | hq2
        · subst hq1
          rintro ⟨h1, h2⟩
          simp only [] at h1 h2
          omega
        · have hu := huncov q hq2
          rintro ⟨h1, h2⟩
          apply hu
          refine ⟨by omega, by omega⟩

/-- Sorting window-disjoint patches of positive removal width by index gives
an ascending, window-separated list. -/
theorem sorted_strict_of_disjoint (ps : List Patch)
    (hrem : ∀ p ∈ ps, 0 < p.2.1)
    (hsep : List.Pairwise windowsDisjoint ps) :
    patchesSeparated (List.insertionSort patchLE ps) := by
  have hperm : (List.insertionSort patchLE ps).Perm ps := List.perm_insertionSort patchLE ps
  have hsep' : List.Pairwise windowsDisjoint (List.insertionSort patchLE ps) := by
    refine (hperm.pairwise_iff ?_).mpr hsep
    intro a b h
    rcases h with h | h
    · exact Or.inr h
    · exact Or.inl h
  have hsorted : List.Pairwise patchLE (List.insertionSort patchLE ps) :=
    List.sorted_insertionSort patchLE ps
  have hand := hsorted.and hsep'
  refine List.Pairwise.imp_of_mem ?_ hand
  intro a b ha hb hab
  obtain ⟨hle, hdisj⟩ := hab
  have hb' : b ∈ ps := hperm.mem_iff.mp hb
  have hbrem := hrem b hb'
  rcases hdisj with h | h
  · exact h
  · exfalso
    have : a.1 ≤ b.1 := hle
    omega

theorem stringLinked_of_linkFree {l : List Event} (h : linkFree l) : stringLinked l := by
  intro e he lk hlk
  rw [h e he] at hlk
  exact Option.noConfusion hlk

/-- After one pass under the nesting discipline (every sub-tokenizer output
carries only `String`-typed links), with every linked original event covered
by a patch and pairwise-disjoint patch windows, every link left in the
rewritten vector is `String`-typed. -/
theorem pass_output_stringLinked (oracle : ContentType → Nat → List Event)
    (events : List Event) (p1 : List Patch) (d1 : Bool)
    (horacle : ∀ ct i, stringLinked (oracle ct i))
    (hp : passPatches oracle events = some (p1, d1))
    (hcov : ∀ i e, events[i]? = some e → e.link.isSome = true →
      ∃ ins : List Event, (i, 2, ins) ∈ p1)
    (hsep : List.Pairwise windowsDisjoint p1) :
    stringLinked (editMapConsume p1 events) := by
  have hrem2 : ∀ p ∈ p1, p.2.1 = 2 :=
    collectGo_rem2 oracle events events.length 0 [] true (p1, d1)
      (fun p hp0 => absurd hp0 (List.not_mem_nil p)) hp
  have hsl : ∀ p ∈ p1, stringLinked p.2.2 :=
    collectGo_stringLinked oracle events horacle events.length 0 [] true (p1, d1)
      (fun p hp0 => absurd hp0 (List.not_mem_nil p)) hp
  have hstrict : patchesSeparated (List.insertionSort patchLE p1) :=
    sorted_strict_of_disjoint p1 (fun p hp0 => by rw [hrem2 p hp0]; omega) hsep
  intro e he lk hlk
  unfold editMapConsume at he
  have hpos : ∀ p ∈ List.insertionSort patchLE p1, 0 ≤ p.1 := fun p _ => Nat.zero_le _
  rcases editConsumeGo_mem (List.insertionSort patchLE p1) 0 events e hstrict hpos he
    with h1 | h1
  · obtain ⟨p, hpmem, hein⟩ := h1
    have hpmem' : p ∈ p1 := (List.perm_insertionSort patchLE p1).mem_iff.mp hpmem
    exact hsl p hpmem' e hein lk hlk
  · obtain ⟨j, hj, huncov⟩ := h1
    exfalso
    obtain ⟨ins, hinmem⟩ := hcov j e hj (by rw [hlk]; rfl)
    have hinmem' : (j, 2, ins) ∈ List.insertionSort patchLE p1 :=
      (List.perm_insertionSort patchLE p1).mem_iff.mpr hinmem
    apply huncov (j, 2, ins) hinmem'
    constructor
    · simp
    · simp

/-- C2 (amended): under the spec's nesting discipline — `String`-content
sub-tokenizations produce link-free subevents and `Text`-content ones only
`String`-typed links (`String ⊂ Text`, `Text` does not re-enter `Text`) —
and with each pass fully replacing the linked void pairs through disjoint
patch windows, the second application of `subtokenize` returns
`done = true`; moreover a single call returns `done = false` only when some
produced subevent still carries a link. (The event vector may change, and
grow, even on a pass that returns `done = true`.) -/
theorem subtokenize_fixed_point_spec (oracle : ContentType → Nat → List Event)
    (events0 events1 : List Event) (p1 : List Patch) (d1 : Bool)
    (p2 : List Patch) (d2 : Bool)
    (hO1 : ∀ i, linkFree (oracle ContentType.string i))
    (hO2 : ∀ i, stringLinked (oracle ContentType.text i))
    (hp1 : passPatches oracle events0 = some (p1, d1))
    (hcov : ∀ i e, events0[i]? = some e → e.link.isSome = true →
      ∃ ins : List Event, (i, 2, ins) ∈ p1)
    (hsep : List.Pairwise windowsDisjoint p1)
    (hev1 : events1 = editMapConsume p1 events0)
    (hp2 : passPatches oracle events1 = some (p2, d2)) :
    d2 = true ∧
    ∀ (events : List Event) (p : List Patch),
      passPatches oracle events = some (p, false) →
      ∃ i e l, events[i]? = some e ∧ e.link = some l ∧ l.previous = none ∧
        hasLinked (oracle l.content_type i) := by
  constructor
  · have horacle : ∀ ct i, stringLinked (oracle ct i) := by
      intro ct i
      cases ct with
      | string => exact stringLinked_of_linkFree (hO1 i)
      | text => exact hO2 i
    have hout : stringLinked events1 := by
      rw [hev1]
      exact pass_output_stringLinked oracle events0 p1 d1 horacle hp1 hcov hsep
    have hheads : ∀ i e l, events1[i]? = some e → e.link = some l → l.previous = none →
        linkFree (oracle l.content_type i) := by
      intro i e l hi hl _
      have hct := hout e (List.getElem?_mem hi) l hl
      rw [hct]
      exact hO1 i
    exact collectGo_done_pass oracle events1 hheads events1.length 0 [] true (p2, d2) hp2
  · intro events p hps
    rcases collectGo_done_false_back oracle events events.length 0 [] true (p, false)
      hps rfl with h | h
    · simp at h
    · exact h

/-- Sub-tokenizer output used by the C2 analysis: the same four link-free
events (a `paragraph` pair around a `data` pair) for every chain. -/
def c2Subs : List Event :=
  [ { event_type := EventType.enter, token_type := TokenType.paragraph,
      point := ptI 0, link := none },
    { event_type := EventType.enter, token_type := TokenType.data,
      point := ptI 0, link := none },
    { event_type := EventType.exit, token_type := TokenType.data,
      point := ptI 1, link := none },
    { event_type := EventType.exit, token_type := TokenType.paragraph,
      point := ptI 1, link := none } ]

/-- The constant oracle producing `c2Subs`. -/
def c2Oracle : ContentType → Nat → List Event := fun _ _ => c2Subs

/-- A single-member `Text` chain: one linked void `chunkText` pair. -/
def c2Events : List Event :=
  [ { event_type := EventType.enter, token_type := TokenType.chunkText, point := ptI 0,
      link := some { previous := none, next := none, content_type := ContentType.text } },
    { event_type := EventType.exit, token_type := TokenType.chunkText, point := ptI 1,
      link := none } ]

/-- C2 counterexample to the parenthetical "the event vector grows only on
non-done passes": a pass that returns `done = true` can still grow the event
vector — one linked void pair (2 events) is replaced by four link-free
subevents in the same pass that reports `done = true`. -/
theorem subtokenize_done_growth_cex :
    subtokenizeModel c2Oracle c2Events = some (c2Subs, true) ∧
    c2Events.length < c2Subs.length := by
  constructor
  · decide
  · decide

theorem c2Subs_linkFree : linkFree c2Subs := by
  show ∀ e ∈ c2Subs, e.link = none
  decide

theorem subtokenize_fixed_point_spec_witness :
    passPatches c2Oracle c2Events = some ([(0, 2, c2Subs)], true) ∧
    passPatches c2Oracle c2Subs = some ([], true) ∧ true = true := by
  refine ⟨by decide, by decide, ?_⟩
  refine (subtokenize_fixed_point_spec c2Oracle c2Events c2Subs [(0, 2, c2Subs)] true
    [] true (fun _ => c2Subs_linkFree) (fun _ => stringLinked_of_linkFree c2Subs_linkFree)
    (by decide) ?_ (by simp) (by decide) (by decide)).1
  intro i e hi hl
  have hlt : i < c2Events.length := lt_length_of_getElem?_some hi
  have h2 : i < 2 := by simpa [c2Events] using hlt
  rcases i with _ | _ | i
  · exact ⟨c2Subs, by simp⟩
  · exfalso
    simp only [c2Events, List.getElem?_cons_succ, List.getElem?_cons_zero] at hi
    have he := Option.some.inj hi
    rw [← he] at hl
    simp at hl
  · omega

end Micromark
